import Mathlib

/-!
Verification of the range-to-masks converter (`src/range2masks.c`).

The program converts a closed interval `[st, end]` of 32-bit unsigned
integers into a list of TCAM entries `(patt, mask)`, each denoting the
aligned block of addresses `[patt, patt | (~patt & ~mask)]`.

The embedding below models `u32` values as natural numbers below `2^32`;
every C operation that can wrap (left shifts of `mask` and `i`) is
followed by an explicit `% 2^32`.  The C `while` loops are modelled by
structurally recursive functions with an explicit iteration budget that
is provably at least as large as the number of iterations the C loop
performs before its condition turns false (the shift variable `i` wraps
to `0` after 32 doublings, which ends the first inner loop; the second
inner loop runs at most 31 times on any input reachable from
`range2masks`; the outer `for` loop is cut off by the `MAXENT` capacity
check after at most 33 heads of iteration).
-/

namespace Range2Masks

/-- Capacity of the `ent` array of `aclRule` (C enum `MAXENT`). -/
def MAXENT : Nat := 32

/-- C struct `tcamEnt`: a pattern/mask pair of `u32` values. -/
structure tcamEnt where
  patt : Nat
  mask : Nat
deriving DecidableEq

/-- Failure modes of `range2masks`.  The C function returns the single
value `FAILURE` in both cases; the two cases are distinguished there only
by the message printed to `stderr` ("end too big" versus "not enough
memory"). -/
inductive r2mError where
  | rangeTooLarge
  | capacityExceeded
deriving DecidableEq

/-- Body of `mask2plen`'s loop.  C source:
`while (plen > 0) { if (m == mask) return plen; m <<= 1; --plen; }`
with `m` starting at `~0`; `m` is compared against the `u32` argument,
so it is modelled by its value as a `u32` (left shift wraps mod `2^32`).
The first argument is `plen`, which the loop counts down to `0`;
when it reaches `0` the loop exits and the function returns `plen = 0`. -/
def mask2plenAux : Nat → Nat → Nat → Int
  | 0, _, _ => 0
  | plen + 1, m, mask =>
    if m = mask then (plen + 1 : Nat) else mask2plenAux plen ((m <<< 1) % 2 ^ 32) mask

/-- C function `mask2plen`: converts a netmask into a prefix length.
Its doc comment promises a negative return value when `mask` is not
contiguous. -/
def mask2plen (mask : Nat) : Int :=
  mask2plenAux 32 (2 ^ 32 - 1) mask

/-- First inner loop of `range2masks`:
`while (i & patt) { patt ^= i; i <<= 1; mask <<= 1; }`.
Arguments: iteration budget, `patt`, `mask`, `i`.  Started with
`i = 1`; after 32 doublings `i` wraps to `0` and the condition
`i & patt` is false, so a budget of `32` makes the fuel-exhaustion
branch return exactly the state in which the C loop exits. -/
def stripLoop : Nat → Nat → Nat → Nat → Nat × Nat × Nat
  | 0, patt, mask, i => (patt, mask, i)
  | fuel + 1, patt, mask, i =>
    if i &&& patt ≠ 0 then
      stripLoop fuel (patt ^^^ i) ((mask <<< 1) % 2 ^ 32) ((i <<< 1) % 2 ^ 32)
    else
      (patt, mask, i)

/-- Second inner loop of `range2masks`:
`while (patt < st) { i >>= 1; patt |= i; mask |= i; }`.
Arguments: iteration budget, `st`, `patt`, `mask`, `i`.  On every state
reachable from `range2masks` the loop runs at most 31 times (once per
halving of `i = 2^t`, `t ≤ 31`), so a budget of `32` is never
exhausted there; exhaustion corresponds to the C loop never
terminating (`i = 0` with `patt < st`), which is proved unreachable. -/
def retractLoop : Nat → Nat → Nat → Nat → Nat → Nat × Nat × Nat
  | 0, _, patt, mask, i => (patt, mask, i)
  | fuel + 1, st, patt, mask, i =>
    if patt < st then
      retractLoop fuel st (patt ||| (i >>> 1)) (mask ||| (i >>> 1)) (i >>> 1)
    else
      (patt, mask, i)

/-- Outer `for (patt = end; patt >= st; --patt)` loop of `range2masks`,
accumulating appended entries in `acc` (the `ent` array).  Each
iteration first performs the capacity check, then the two inner loops,
then appends `(patt, mask)`; it returns early on `patt == 0`, otherwise
continues at `patt - 1` if that is still `≥ st`.  Every iteration
appends one entry, so starting from the empty accumulator a budget of
`33` is enough for the capacity check `nEnt >= MAXENT` to fire before
the budget runs out. -/
def r2mLoop : Nat → Nat → Nat → List tcamEnt → Except r2mError (List tcamEnt)
  | 0, _, _, _ => .error .capacityExceeded
  | fuel + 1, st, patt0, acc =>
    if acc.length ≥ MAXENT then .error .capacityExceeded
    else
      let s := stripLoop 32 patt0 (2 ^ 32 - 1) 1
      let r := retractLoop 32 st s.1 s.2.1 s.2.2
      let acc' := acc ++ [⟨r.1, r.2.1⟩]
      if r.1 = 0 then .ok acc'
      else if r.1 - 1 ≥ st then r2mLoop fuel st (r.1 - 1) acc'
      else .ok acc'

/-- C function `range2masks` (the `pRule == NULL` check is not modelled:
the embedding returns the entry list directly instead of writing through
a pointer).  The guard rejects `end == ~0` unless `st == 0`; then the
`for` loop runs while `patt ≥ st`, so `end < st` yields `SUCCESS` with
an empty rule set. -/
def range2masks (st e : Nat) : Except r2mError (List tcamEnt) :=
  if e = 2 ^ 32 - 1 ∧ st ≠ 0 then .error .rangeTooLarge
  else if e ≥ st then r2mLoop 33 st e []
  else .ok []

/-- Top address of the block denoted by an entry, as computed by the C
function `printEntry`: `end = patt | ((~patt) & (~mask));` where `~x`
on a `u32` is `(2^32 - 1) ^^^ x`. -/
def blockTopE (ent : tcamEnt) : Nat :=
  ent.patt ||| (((2 ^ 32 - 1) ^^^ ent.patt) &&& ((2 ^ 32 - 1) ^^^ ent.mask))

/-- Result of the rule-set selector implemented in `main`. -/
inductive Selection where
  | direct : List tcamEnt → Selection
  | split : List tcamEnt → List tcamEnt → Selection
deriving DecidableEq

/-- Selector logic of `main` (the `-optimize` path, lines 301-322):
compute the direct conversion of `[start, end]`; when `start == 0` no
split is attempted; otherwise compare the direct entry count with
`count [0, start-1] + count [0, end]` and pick the smaller
representation.  The C `assert(st == SUCCESS)` calls are modelled by
propagating the error. -/
def select (start e : Nat) : Except r2mError Selection :=
  match range2masks start e with
  | .error er => .error er
  | .ok direct =>
    if start = 0 then .ok (.direct direct)
    else
      match range2masks 0 (start - 1), range2masks 0 e with
      | .ok rej, .ok acc =>
        if rej.length + acc.length < direct.length then .ok (.split rej acc)
        else .ok (.direct direct)
      | .error er, _ => .error er
      | .ok _, .error er => .error er

/-- The contiguous mask with `k` low wildcard bits: `allOnes << k`
truncated to 32 bits, that is `(0xffffffff << k) % 2^32`. -/
def allOnesShl (k : Nat) : Nat :=
  ((2 ^ 32 - 1) <<< k) % 2 ^ 32

/-! ### Bit-level toolkit

Elementary facts about `&&&`, `|||` and `^^^` on natural numbers in the
special shapes the algorithm produces (a power of two against a number
whose corresponding bit is known). -/

lemma bit_decomp (p j : Nat) :
    p = 2 ^ (j + 1) * (p / 2 ^ (j + 1)) + p / 2 ^ j % 2 * 2 ^ j + p % 2 ^ j := by
  have h1 := Nat.div_add_mod p (2 ^ j)
  have h2 := Nat.div_add_mod (p / 2 ^ j) 2
  have h3 : p / 2 ^ j / 2 = p / 2 ^ (j + 1) := by
    rw [Nat.div_div_eq_div_mul, pow_succ]
  rw [h3] at h2
  calc p = 2 ^ j * (p / 2 ^ j) + p % 2 ^ j := h1.symm
    _ = 2 ^ j * (2 * (p / 2 ^ (j + 1)) + p / 2 ^ j % 2) + p % 2 ^ j := by rw [h2]
    _ = _ := by ring

lemma testBit_true_iff (p j : Nat) : p.testBit j = true ↔ p / 2 ^ j % 2 = 1 := by
  rw [Nat.testBit_to_div_mod]; simp

lemma testBit_false_iff (p j : Nat) : p.testBit j = false ↔ p / 2 ^ j % 2 = 0 := by
  rw [Nat.testBit_to_div_mod]
  have := Nat.mod_two_eq_zero_or_one (p / 2 ^ j)
  constructor
  · intro h
    simp only [decide_eq_false_iff_not] at h
    omega
  · intro h
    simp only [decide_eq_false_iff_not]
    omega

lemma and_two_pow_eq_zero_iff (p j : Nat) : 2 ^ j &&& p = 0 ↔ p / 2 ^ j % 2 = 0 := by
  rw [Nat.and_comm, Nat.and_two_pow]
  cases hb : p.testBit j with
  | false =>
    simp only [Bool.toNat_false, Nat.zero_mul, true_iff]
    exact (testBit_false_iff p j).mp hb
  | true =>
    simp only [Bool.toNat_true, Nat.one_mul]
    have h1 : p / 2 ^ j % 2 = 1 := (testBit_true_iff p j).mp hb
    have h2 : 0 < 2 ^ j := Nat.two_pow_pos j
    constructor
    · intro h; omega
    · intro h; omega

lemma testBit_one_eq (k : Nat) : Nat.testBit 1 k = decide (k = 0) := by
  cases k with
  | zero => simp
  | succ k' =>
    have h1 : (1 : Nat) < 2 ^ (k' + 1) := Nat.one_lt_two_pow (by omega)
    simp [Nat.testBit_lt_two_pow h1]

lemma testBit_two_pow_add_small {j r : Nat} (hr : r < 2 ^ j) (i : Nat) :
    (2 ^ j + r).testBit i = if i < j then r.testBit i else decide (i = j) := by
  have h1 : (2 : Nat) ^ j + r = 2 ^ j * 1 + r := by ring
  rw [h1, Nat.testBit_mul_pow_two_add _ hr i, testBit_one_eq]
  by_cases h2 : i < j
  · simp [h2]
  · simp only [h2, if_false, decide_eq_decide]
    omega

lemma xor_two_pow_of_bit_one {p j : Nat} (h : p / 2 ^ j % 2 = 1) :
    p ^^^ 2 ^ j = p - 2 ^ j := by
  have hrlt : p % 2 ^ j < 2 ^ j := Nat.mod_lt _ (Nat.two_pow_pos j)
  have hpow : (2 : Nat) ^ (j + 1) = 2 ^ j + 2 ^ j := by rw [pow_succ]; ring
  have hp : p = 2 ^ (j + 1) * (p / 2 ^ (j + 1)) + (2 ^ j + p % 2 ^ j) := by
    have hd := bit_decomp p j
    rw [h] at hd
    set X := 2 ^ (j + 1) * (p / 2 ^ (j + 1)) with hX
    omega
  have hblt : 2 ^ j + p % 2 ^ j < 2 ^ (j + 1) := by omega
  have hrlt' : p % 2 ^ j < 2 ^ (j + 1) := by omega
  have hsub : p - 2 ^ j = 2 ^ (j + 1) * (p / 2 ^ (j + 1)) + p % 2 ^ j := by
    have h1 := hp
    set X := 2 ^ (j + 1) * (p / 2 ^ (j + 1)) with hX
    omega
  apply Nat.eq_of_testBit_eq
  intro i
  rw [Nat.testBit_xor, hsub, Nat.testBit_mul_pow_two_add _ hrlt' i]
  conv_lhs => rw [hp, Nat.testBit_mul_pow_two_add _ hblt i]
  rcases Nat.lt_trichotomy i j with hij | hij | hij
  · rw [if_pos (by omega), if_pos (by omega), testBit_two_pow_add_small hrlt i,
      if_pos hij, Nat.testBit_two_pow_of_ne (by omega)]
    simp
  · subst hij
    rw [if_pos (by omega), if_pos (by omega), testBit_two_pow_add_small hrlt i,
      if_neg (by omega), Nat.testBit_two_pow_self,
      Nat.testBit_lt_two_pow hrlt]
    simp
  · rw [if_neg (by omega), if_neg (by omega), Nat.testBit_two_pow_of_ne (by omega)]
    simp

lemma lor_two_pow_of_bit_zero {p j : Nat} (h : p / 2 ^ j % 2 = 0) :
    p ||| 2 ^ j = p + 2 ^ j := by
  have hrlt : p % 2 ^ j < 2 ^ j := Nat.mod_lt _ (Nat.two_pow_pos j)
  have hpow : (2 : Nat) ^ (j + 1) = 2 ^ j + 2 ^ j := by rw [pow_succ]; ring
  have hp : p = 2 ^ (j + 1) * (p / 2 ^ (j + 1)) + p % 2 ^ j := by
    have hd := bit_decomp p j
    rw [h] at hd
    set X := 2 ^ (j + 1) * (p / 2 ^ (j + 1)) with hX
    omega
  have hblt : 2 ^ j + p % 2 ^ j < 2 ^ (j + 1) := by omega
  have hrlt' : p % 2 ^ j < 2 ^ (j + 1) := by omega
  have hadd : p + 2 ^ j = 2 ^ (j + 1) * (p / 2 ^ (j + 1)) + (2 ^ j + p % 2 ^ j) := by
    have h1 := hp
    set X := 2 ^ (j + 1) * (p / 2 ^ (j + 1)) with hX
    omega
  apply Nat.eq_of_testBit_eq
  intro i
  rw [Nat.testBit_or, hadd, Nat.testBit_mul_pow_two_add _ hblt i]
  conv_lhs => rw [hp, Nat.testBit_mul_pow_two_add _ hrlt' i]
  rcases Nat.lt_trichotomy i j with hij | hij | hij
  · rw [if_pos (by omega), if_pos (by omega), testBit_two_pow_add_small hrlt i,
      if_pos hij, Nat.testBit_two_pow_of_ne (by omega)]
    simp
  · subst hij
    rw [if_pos (by omega), if_pos (by omega), testBit_two_pow_add_small hrlt i,
      if_neg (by omega), Nat.testBit_two_pow_self,
      Nat.testBit_lt_two_pow hrlt]
    simp
  · rw [if_neg (by omega), if_neg (by omega), Nat.testBit_two_pow_of_ne (by omega)]
    simp

lemma div_pred_even {x j : Nat} (hj : 1 ≤ j) (h : 2 ^ j ∣ x) : x / 2 ^ (j - 1) % 2 = 0 := by
  obtain ⟨y, hy⟩ := h
  subst hy
  have h1 : (2 : Nat) ^ j = 2 ^ (j - 1) * 2 := by
    rw [← pow_succ]; congr 1; omega
  rw [h1, mul_assoc, Nat.mul_div_cancel_left _ (Nat.two_pow_pos _)]
  omega

lemma div_exact_odd {x j : Nat} (h1 : 2 ^ j ∣ x) (h2 : ¬ 2 ^ (j + 1) ∣ x) : x / 2 ^ j % 2 = 1 := by
  obtain ⟨y, hy⟩ := h1
  subst hy
  rw [Nat.mul_div_cancel_left _ (Nat.two_pow_pos _)]
  rcases Nat.even_or_odd y with he | ho
  · obtain ⟨z, hz⟩ := he
    exact absurd ⟨z, by rw [hz, pow_succ]; ring⟩ h2
  · exact Nat.odd_iff.mp ho

/-! ### The number of trailing one-bits and the greedy block exponent

`tv c` is the 2-adic valuation of `c + 1`, i.e. the length of the run
of one-bits at the bottom of `c`; for `c < 2^32` it is at most 32.
`gexp st c` is the exponent of the block the loop body emits when the
cursor is at `c`: the largest `k` such that the aligned block of size
`2^k` whose top address is `c` exists (`2^k ∣ c+1`) and does not
undershoot `st`. -/

def tv (c : Nat) : Nat := Nat.findGreatest (fun j => 2 ^ j ∣ (c + 1)) 32

def gexp (st c : Nat) : Nat :=
  Nat.findGreatest (fun j => 2 ^ j ∣ (c + 1) ∧ st + 2 ^ j ≤ c + 1) 32

lemma pow33 : (2 : Nat) ^ 33 = 2 ^ 32 * 2 := pow_succ 2 32

lemma exp_le_32_of_dvd {c j : Nat} (hc : c < 2 ^ 32) (h : 2 ^ j ∣ (c + 1)) : j ≤ 32 := by
  by_contra h3
  have h4 : (2 : Nat) ^ 33 ≤ 2 ^ j := Nat.pow_le_pow_right (by omega) (by omega)
  have h5 : 2 ^ j ≤ c + 1 := Nat.le_of_dvd (by omega) h
  have := pow33
  omega

lemma tv_le (c : Nat) : tv c ≤ 32 := Nat.findGreatest_le _

lemma tv_dvd (c : Nat) : 2 ^ tv c ∣ (c + 1) := by
  have h := Nat.findGreatest_spec (P := fun j => 2 ^ j ∣ (c + 1)) (m := 0) (n := 32)
    (by omega) (by simp)
  exact h

lemma le_tv_of_dvd {c j : Nat} (hj : j ≤ 32) (h : 2 ^ j ∣ (c + 1)) : j ≤ tv c :=
  Nat.le_findGreatest (P := fun j => 2 ^ j ∣ (c + 1)) hj h

lemma dvd_of_le_tv {c j : Nat} (h : j ≤ tv c) : 2 ^ j ∣ (c + 1) :=
  dvd_trans (pow_dvd_pow 2 h) (tv_dvd c)

lemma tv_not_dvd {c : Nat} (hc : c < 2 ^ 32) : ¬ 2 ^ (tv c + 1) ∣ (c + 1) := by
  intro hdvd
  have h2 : tv c + 1 ≤ 32 := exp_le_32_of_dvd hc hdvd
  have h3 := Nat.le_findGreatest (P := fun j => 2 ^ j ∣ (c + 1)) h2 hdvd
  have h4 : tv c + 1 ≤ tv c := h3
  omega

lemma tv_eq_of_exact {c k : Nat} (hk : k ≤ 32) (h1 : 2 ^ k ∣ (c + 1))
    (h2 : ¬ 2 ^ (k + 1) ∣ (c + 1)) : tv c = k := by
  have hle := le_tv_of_dvd hk h1
  by_contra hne
  have h3 : k + 1 ≤ tv c := by omega
  exact h2 (dvd_of_le_tv h3)

lemma gexp_le (st c : Nat) : gexp st c ≤ 32 := Nat.findGreatest_le _

lemma gexp_spec {st c : Nat} (h : st ≤ c) :
    2 ^ gexp st c ∣ (c + 1) ∧ st + 2 ^ gexp st c ≤ c + 1 := by
  have hP : (fun j => 2 ^ j ∣ (c + 1) ∧ st + 2 ^ j ≤ c + 1) 0 := by
    refine ⟨by simp, ?_⟩
    simp only [pow_zero]
    omega
  have h2 := Nat.findGreatest_spec (P := fun j => 2 ^ j ∣ (c + 1) ∧ st + 2 ^ j ≤ c + 1)
    (m := 0) (n := 32) (by omega) hP
  exact h2

lemma gexp_not {st c : Nat} (hc : c < 2 ^ 32) {j : Nat} (hj : gexp st c < j)
    (hdvd : 2 ^ j ∣ (c + 1)) : c + 1 < st + 2 ^ j := by
  by_contra hcon
  have hle : j ≤ 32 := exp_le_32_of_dvd hc hdvd
  have h2 := Nat.le_findGreatest (P := fun j => 2 ^ j ∣ (c + 1) ∧ st + 2 ^ j ≤ c + 1)
    hle ⟨hdvd, by omega⟩
  have h3 : j ≤ gexp st c := h2
  omega

lemma gexp_le_tv {st c : Nat} (h : st ≤ c) : gexp st c ≤ tv c :=
  le_tv_of_dvd (gexp_le st c) (gexp_spec h).1

lemma sub_pow_dvd_succ {x t : Nat} (h1 : 2 ^ t ∣ x) (h2 : ¬ 2 ^ (t + 1) ∣ x) :
    2 ^ (t + 1) ∣ (x - 2 ^ t) := by
  obtain ⟨m, hm⟩ := h1
  subst hm
  have hodd : m % 2 = 1 := by
    rcases Nat.even_or_odd m with he | ho
    · obtain ⟨z, hz⟩ := he
      exact absurd ⟨z, by rw [hz, pow_succ]; ring⟩ h2
    · exact Nat.odd_iff.mp ho
  obtain ⟨z, hz⟩ : ∃ z, m = 2 * z + 1 := ⟨(m - 1) / 2, by omega⟩
  refine ⟨z, ?_⟩
  rw [hz, pow_succ]
  have hexp : 2 ^ t * (2 * z + 1) = 2 ^ t * 2 * z + 2 ^ t := by ring
  omega

/-! ### Closed form of the first inner loop -/

lemma stripLoop_go {c : Nat} (hc : c < 2 ^ 32) :
    ∀ n j, n = tv c - j → j ≤ tv c →
    stripLoop (32 - j) (c + 1 - 2 ^ j) (2 ^ 32 - 2 ^ j) (2 ^ j % 2 ^ 32) =
      (c + 1 - 2 ^ tv c, 2 ^ 32 - 2 ^ tv c, 2 ^ tv c % 2 ^ 32) := by
  intro n
  induction n with
  | zero =>
    intro j hn hj
    have hj' : j = tv c := by omega
    subst hj'
    rcases Nat.lt_or_ge (tv c) 32 with h32 | h32
    · obtain ⟨f, hf⟩ : ∃ f, 32 - tv c = f + 1 := ⟨32 - tv c - 1, by omega⟩
      have hmod : 2 ^ tv c % 2 ^ 32 = 2 ^ tv c :=
        Nat.mod_eq_of_lt (Nat.pow_lt_pow_right (by omega) h32)
      rw [hf, hmod]
      have hdvd1 : 2 ^ (tv c + 1) ∣ (c + 1 - 2 ^ tv c) :=
        sub_pow_dvd_succ (tv_dvd c) (tv_not_dvd hc)
      have hcond : 2 ^ tv c &&& (c + 1 - 2 ^ tv c) = 0 := by
        rw [and_two_pow_eq_zero_iff]
        have := div_pred_even (j := tv c + 1) (by omega) hdvd1
        simpa using this
      simp only [stripLoop]
      rw [if_neg (by simp [hcond])]
    · have ht : tv c = 32 := by
        have := tv_le c
        omega
      rw [show 32 - tv c = 0 from by omega]
      rfl
  | succ n ih =>
    intro j hn hj
    have hjlt : j < tv c := by omega
    have hjlt32 : j < 32 := by
      have := tv_le c
      omega
    have hmodj : 2 ^ j % 2 ^ 32 = 2 ^ j :=
      Nat.mod_eq_of_lt (Nat.pow_lt_pow_right (by omega) hjlt32)
    have hdvdj1 : 2 ^ (j + 1) ∣ (c + 1) := dvd_of_le_tv (by omega)
    have hlej1 : 2 ^ (j + 1) ≤ c + 1 := Nat.le_of_dvd (by omega) hdvdj1
    have hpowj : (2 : Nat) ^ (j + 1) = 2 ^ j + 2 ^ j := by rw [pow_succ]; ring
    have hdvdsub : 2 ^ j ∣ (c + 1 - 2 ^ j) :=
      Nat.dvd_sub' (dvd_trans (pow_dvd_pow 2 (by omega)) hdvdj1) dvd_rfl
    have hndvdsub : ¬ 2 ^ (j + 1) ∣ (c + 1 - 2 ^ j) := by
      intro hd
      have h1 : 2 ^ (j + 1) ∣ ((c + 1) - (c + 1 - 2 ^ j)) := Nat.dvd_sub' hdvdj1 hd
      have h2 : (c + 1) - (c + 1 - 2 ^ j) = 2 ^ j := by omega
      rw [h2] at h1
      have h3 := Nat.le_of_dvd (Nat.two_pow_pos _) h1
      omega
    have hbit : (c + 1 - 2 ^ j) / 2 ^ j % 2 = 1 := div_exact_odd hdvdsub hndvdsub
    rw [hmodj, show 32 - j = (32 - (j + 1)) + 1 from by omega]
    simp only [stripLoop]
    rw [if_pos (by
      rw [Ne, and_two_pow_eq_zero_iff]
      omega)]
    have harg1 : (c + 1 - 2 ^ j) ^^^ 2 ^ j = c + 1 - 2 ^ (j + 1) := by
      rw [xor_two_pow_of_bit_one hbit]
      omega
    have harg2 : ((2 ^ 32 - 2 ^ j) <<< 1) % 2 ^ 32 = 2 ^ 32 - 2 ^ (j + 1) := by
      rw [Nat.shiftLeft_eq, pow_one]
      have h1 : 2 ^ (j + 1) ≤ 2 ^ 32 := Nat.pow_le_pow_right (by omega) (by omega)
      have h2 : (2 ^ 32 - 2 ^ j) * 2 = 2 ^ 32 + (2 ^ 32 - 2 ^ (j + 1)) := by omega
      rw [h2, Nat.add_mod_left, Nat.mod_eq_of_lt (by omega)]
    have harg3 : (2 ^ j <<< 1) % 2 ^ 32 = 2 ^ (j + 1) % 2 ^ 32 := by
      rw [Nat.shiftLeft_eq, pow_one, ← pow_succ]
    rw [harg1, harg2, harg3]
    exact ih (j + 1) (by omega) (by omega)

lemma stripLoop_closed {c : Nat} (hc : c < 2 ^ 32) :
    stripLoop 32 c (2 ^ 32 - 1) 1 =
      (c + 1 - 2 ^ tv c, 2 ^ 32 - 2 ^ tv c, 2 ^ tv c % 2 ^ 32) := by
  have h := stripLoop_go hc (tv c) 0 (by omega) (by omega)
  simpa using h

/-! ### Closed form of the second inner loop -/

lemma retractLoop_go {st c : Nat} (hst : st ≤ c) (hc : c < 2 ^ 32) :
    ∀ n f j, n = j - gexp st c → gexp st c ≤ j → j ≤ tv c → j - gexp st c ≤ f →
    retractLoop f st (c + 1 - 2 ^ j) (2 ^ 32 - 2 ^ j) (2 ^ j) =
      (c + 1 - 2 ^ gexp st c, 2 ^ 32 - 2 ^ gexp st c, 2 ^ gexp st c) := by
  intro n
  induction n with
  | zero =>
    intro f j hn hgj hjt hf
    have hj : j = gexp st c := by omega
    subst hj
    have hge : st ≤ c + 1 - 2 ^ gexp st c := by
      have := (@gexp_spec st c hst).2
      omega
    cases f with
    | zero => rfl
    | succ f' =>
      simp only [retractLoop]
      rw [if_neg (by omega)]
  | succ n ih =>
    intro f j hn hgj hjt hf
    have hjg : gexp st c < j := by omega
    have hdvdj : 2 ^ j ∣ (c + 1) := dvd_of_le_tv hjt
    have hlej : 2 ^ j ≤ c + 1 := Nat.le_of_dvd (by omega) hdvdj
    have hlt : c + 1 - 2 ^ j < st := by
      have := gexp_not hc hjg hdvdj
      omega
    obtain ⟨f', hf'⟩ : ∃ f', f = f' + 1 := ⟨f - 1, by omega⟩
    subst hf'
    simp only [retractLoop]
    rw [if_pos hlt]
    have hj1 : 1 ≤ j := by omega
    have hpowj : (2 : Nat) ^ j = 2 ^ (j - 1) * 2 := by
      rw [← pow_succ]
      congr 1
      omega
    have hshift : 2 ^ j >>> 1 = 2 ^ (j - 1) := by
      rw [Nat.shiftRight_eq_div_pow, pow_one, hpowj,
        Nat.mul_div_cancel _ (by omega)]
    have hdvdsubj : 2 ^ j ∣ (c + 1 - 2 ^ j) := Nat.dvd_sub' hdvdj dvd_rfl
    have hbit1 : (c + 1 - 2 ^ j) / 2 ^ (j - 1) % 2 = 0 := div_pred_even hj1 hdvdsubj
    have hdvdmask : 2 ^ j ∣ (2 ^ 32 - 2 ^ j) :=
      Nat.dvd_sub' (pow_dvd_pow 2 (by have := tv_le c; omega)) dvd_rfl
    have hbit2 : (2 ^ 32 - 2 ^ j) / 2 ^ (j - 1) % 2 = 0 := div_pred_even hj1 hdvdmask
    have hlepow : (2 : Nat) ^ j ≤ 2 ^ 32 :=
      Nat.pow_le_pow_right (by omega) (by have := tv_le c; omega)
    have harg1 : (c + 1 - 2 ^ j) ||| 2 ^ j >>> 1 = c + 1 - 2 ^ (j - 1) := by
      rw [hshift, lor_two_pow_of_bit_zero hbit1]
      omega
    have harg2 : (2 ^ 32 - 2 ^ j) ||| 2 ^ j >>> 1 = 2 ^ 32 - 2 ^ (j - 1) := by
      rw [hshift, lor_two_pow_of_bit_zero hbit2]
      omega
    rw [harg1, harg2, hshift]
    exact ih f' (j - 1) (by omega) (by omega) (by omega) (by omega)

/-- Closed form of the retraction loop applied to the exit state of the
stripping loop: together the two inner loops turn the cursor `c` into
the block of exponent `gexp st c` whose top address is `c`. -/
lemma oneStep {st c : Nat} (hst : st ≤ c) (hc : c < 2 ^ 32)
    (hg : c = 2 ^ 32 - 1 → st = 0) :
    retractLoop 32 st (c + 1 - 2 ^ tv c) (2 ^ 32 - 2 ^ tv c) (2 ^ tv c % 2 ^ 32) =
      (c + 1 - 2 ^ gexp st c, 2 ^ 32 - 2 ^ gexp st c, 2 ^ gexp st c % 2 ^ 32) := by
  rcases Nat.eq_or_lt_of_le (gexp_le_tv hst) with heq | hlt
  · rw [← heq]
    have hge : st ≤ c + 1 - 2 ^ gexp st c := by
      have := (@gexp_spec st c hst).2
      omega
    simp only [retractLoop]
    rw [if_neg (by omega)]
  · have ht31 : tv c ≤ 31 := by
      by_contra h31
      have ht32 : tv c = 32 := by
        have := tv_le c
        omega
      have hle : 2 ^ 32 ≤ c + 1 := by
        have := Nat.le_of_dvd (by omega) (tv_dvd c)
        rw [ht32] at this
        omega
      have hce : c = 2 ^ 32 - 1 := by omega
      have hst0 : st = 0 := hg hce
      have hP : 2 ^ (32 : Nat) ∣ (c + 1) ∧ st + 2 ^ (32 : Nat) ≤ c + 1 := by
        constructor
        · rw [← ht32]; exact tv_dvd c
        · omega
      have h2 := Nat.le_findGreatest
        (P := fun j => 2 ^ j ∣ (c + 1) ∧ st + 2 ^ j ≤ c + 1) (le_refl 32) hP
      have h3 : 32 ≤ gexp st c := h2
      have := gexp_le st c
      omega
    have hmod : 2 ^ tv c % 2 ^ 32 = 2 ^ tv c :=
      Nat.mod_eq_of_lt (Nat.pow_lt_pow_right (by omega) (by omega))
    rw [hmod]
    have h := retractLoop_go hst hc (tv c - gexp st c) 32 (tv c) rfl (by omega)
      (le_refl _) (by have := tv_le c; omega)
    rw [h]
    have hmodg : 2 ^ gexp st c % 2 ^ 32 = 2 ^ gexp st c :=
      Nat.mod_eq_of_lt (Nat.pow_lt_pow_right (by omega) (by
        have := gexp_le_tv hst
        omega))
    rw [hmodg]

/-! ### The greedy decomposition as a pure recursion -/

/-- The sequence of `(block start, block exponent)` pairs the outer loop
emits starting from cursor `c`: the block with top address `c` has
exponent `gexp st c` and start `c + 1 - 2 ^ gexp st c`, and the loop
continues just below that block while its start is above `st`. -/
def gblocks (st c : Nat) : List (Nat × Nat) :=
  if h : st < c + 1 - 2 ^ gexp st c then
    (c + 1 - 2 ^ gexp st c, gexp st c) :: gblocks st (c - 2 ^ gexp st c)
  else
    [(c + 1 - 2 ^ gexp st c, gexp st c)]
termination_by c
decreasing_by
  have h1 : 0 < 2 ^ gexp st c := Nat.two_pow_pos _
  omega

/-- The entry written for a block: the start address as pattern and the
contiguous mask with `b.2` wildcard bits. -/
def blkEnt (b : Nat × Nat) : tcamEnt := ⟨b.1, 2 ^ 32 - 2 ^ b.2⟩

lemma gblocks_ne_nil (st c : Nat) : gblocks st c ≠ [] := by
  rw [gblocks]
  split <;> simp

lemma gblocks_length_pos (st c : Nat) : 0 < (gblocks st c).length :=
  List.length_pos.mpr (gblocks_ne_nil st c)

lemma block_start_le {st c : Nat} (hst : st ≤ c) : st ≤ c + 1 - 2 ^ gexp st c := by
  have := (@gexp_spec st c hst).2
  omega

lemma block_start_pos {st c : Nat} (hst : st ≤ c) : 2 ^ gexp st c ≤ c + 1 :=
  Nat.le_of_dvd (by omega) (gexp_spec hst).1

/-! ### The outer loop computes the greedy decomposition -/

lemma r2mLoop_eq :
    ∀ fuel st c acc, st ≤ c → c < 2 ^ 32 → (c = 2 ^ 32 - 1 → st = 0) →
    fuel + acc.length = 33 →
    r2mLoop fuel st c acc =
      if acc.length + (gblocks st c).length ≤ 32
      then .ok (acc ++ (gblocks st c).map blkEnt)
      else .error .capacityExceeded := by
  intro fuel
  induction fuel with
  | zero =>
    intro st c acc hst hc hg hfuel
    have hlen := gblocks_length_pos st c
    rw [if_neg (by omega)]
    rfl
  | succ fuel ih =>
    intro st c acc hst hc hg hfuel
    have hlen := gblocks_length_pos st c
    have hple := block_start_pos hst
    have hstp := block_start_le hst
    have hpos : 0 < 2 ^ gexp st c := Nat.two_pow_pos _
    simp only [r2mLoop, MAXENT]
    by_cases hcap : acc.length ≥ 32
    · rw [if_pos hcap, if_neg (by omega)]
    · rw [if_neg hcap, stripLoop_closed hc, oneStep hst hc hg]
      by_cases hsp : st < c + 1 - 2 ^ gexp st c
      · have hp0 : ¬ (c + 1 - 2 ^ gexp st c = 0) := by omega
        have hcont : c + 1 - 2 ^ gexp st c - 1 ≥ st := by omega
        have hnext : c + 1 - 2 ^ gexp st c - 1 = c - 2 ^ gexp st c := by omega
        rw [if_neg hp0, if_pos hcont, hnext]
        rw [gblocks, dif_pos hsp]
        have hnext_le : st ≤ c - 2 ^ gexp st c := by omega
        have hnext_lt : c - 2 ^ gexp st c < 2 ^ 32 := by omega
        have hnext_g : c - 2 ^ gexp st c = 2 ^ 32 - 1 → st = 0 := by
          intro hx
          omega
        have hacc : (acc ++ [blkEnt (c + 1 - 2 ^ gexp st c, gexp st c)]).length
            = acc.length + 1 := by simp
        have hrec := ih st (c - 2 ^ gexp st c)
          (acc ++ [blkEnt (c + 1 - 2 ^ gexp st c, gexp st c)])
          hnext_le hnext_lt hnext_g (by rw [hacc]; omega)
        rw [show (⟨c + 1 - 2 ^ gexp st c, 2 ^ 32 - 2 ^ gexp st c⟩ : tcamEnt)
            = blkEnt (c + 1 - 2 ^ gexp st c, gexp st c) from rfl]
        rw [hrec]
        rw [hacc]
        by_cases hfit : acc.length + 1 + (gblocks st (c - 2 ^ gexp st c)).length ≤ 32
        · rw [if_pos hfit, if_pos (by simp; omega)]
          simp
        · rw [if_neg hfit, if_neg (by simp; omega)]
      · have hps : c + 1 - 2 ^ gexp st c = st := by omega
        rw [gblocks, dif_neg hsp]
        rw [show (⟨c + 1 - 2 ^ gexp st c, 2 ^ 32 - 2 ^ gexp st c⟩ : tcamEnt)
            = blkEnt (c + 1 - 2 ^ gexp st c, gexp st c) from rfl]
        by_cases hp0 : c + 1 - 2 ^ gexp st c = 0
        · rw [if_pos hp0, if_pos (by simp; omega)]
          simp
        · rw [if_neg hp0, if_neg (by omega), if_pos (by simp; omega)]
          simp

/-- Characterisation of `range2masks` for `st ≤ e`: it succeeds with the
entries of the greedy decomposition exactly when that decomposition has
at most 32 blocks, and fails with `capacityExceeded` otherwise. -/
lemma range2masks_eq {st e : Nat} (hst : st ≤ e) (he : e < 2 ^ 32)
    (hg : e = 2 ^ 32 - 1 → st = 0) :
    range2masks st e =
      if (gblocks st e).length ≤ 32 then .ok ((gblocks st e).map blkEnt)
      else .error .capacityExceeded := by
  rw [range2masks, if_neg (by
    rintro ⟨h1, h2⟩
    exact h2 (hg h1))]
  rw [if_pos hst]
  have h := r2mLoop_eq 33 st e [] hst he hg (by simp)
  simpa using h

lemma range2masks_ok_elim {st e : Nat} {rs : List tcamEnt} (he : e < 2 ^ 32)
    (hse : st ≤ e) (hok : range2masks st e = .ok rs) :
    rs = (gblocks st e).map blkEnt ∧ (gblocks st e).length ≤ 32 := by
  have hg : e = 2 ^ 32 - 1 → st = 0 := by
    intro h1
    by_contra h2
    rw [range2masks, if_pos ⟨h1, h2⟩] at hok
    simp at hok
  rw [range2masks_eq hse he hg] at hok
  by_cases hlen : (gblocks st e).length ≤ 32
  · rw [if_pos hlen] at hok
    have := Except.ok.inj hok
    exact ⟨this.symm, hlen⟩
  · rw [if_neg hlen] at hok
    simp at hok

/-! ### Structural properties of the greedy decomposition

Throughout this section a cursor `c` satisfies the loop invariant
`st ≤ c < 2^32` together with the guard fact that `c` can only be the
domain maximum when `st = 0`. -/

lemma next_cursor_bounds {st c : Nat} (hsp : st < c + 1 - 2 ^ gexp st c)
    (hc : c < 2 ^ 32) :
    c - 2 ^ gexp st c < c ∧ st ≤ c - 2 ^ gexp st c ∧ c - 2 ^ gexp st c < 2 ^ 32 ∧
      (c - 2 ^ gexp st c = 2 ^ 32 - 1 → st = 0) := by
  have hpos : 0 < 2 ^ gexp st c := Nat.two_pow_pos _
  refine ⟨by omega, by omega, by omega, ?_⟩
  intro hx
  omega

lemma gblocks_shape :
    ∀ c st, st ≤ c → c < 2 ^ 32 →
    ∀ b ∈ gblocks st c, st ≤ b.1 ∧ 2 ^ b.2 ∣ b.1 ∧ b.2 ≤ 32 ∧ b.1 + 2 ^ b.2 - 1 ≤ c := by
  intro c
  induction c using Nat.strong_induction_on with
  | _ c ih =>
    intro st hst hc b hb
    have hple := block_start_pos hst
    have hstp := block_start_le hst
    have hdvd : 2 ^ gexp st c ∣ (c + 1 - 2 ^ gexp st c) :=
      Nat.dvd_sub' (gexp_spec hst).1 dvd_rfl
    rw [gblocks] at hb
    by_cases hsp : st < c + 1 - 2 ^ gexp st c
    · rw [dif_pos hsp] at hb
      rcases List.mem_cons.mp hb with hb1 | hb2
      · subst hb1
        exact ⟨hstp, hdvd, gexp_le st c, by dsimp only; omega⟩
      · obtain ⟨hlt, hle, hlt32, _⟩ := next_cursor_bounds hsp hc
        have := ih _ hlt st hle hlt32 b hb2
        exact ⟨this.1, this.2.1, this.2.2.1, by omega⟩
    · rw [dif_neg hsp] at hb
      rcases List.mem_singleton.mp hb with hb1
      subst hb1
      exact ⟨hstp, hdvd, gexp_le st c, by dsimp only; omega⟩

lemma gblocks_cover :
    ∀ c st, st ≤ c → c < 2 ^ 32 →
    ∀ a, (st ≤ a ∧ a ≤ c) ↔ ∃ b ∈ gblocks st c, b.1 ≤ a ∧ a ≤ b.1 + 2 ^ b.2 - 1 := by
  intro c
  induction c using Nat.strong_induction_on with
  | _ c ih =>
    intro st hst hc a
    have hple := block_start_pos hst
    have hstp := block_start_le hst
    have hpos : 0 < 2 ^ gexp st c := Nat.two_pow_pos _
    have htop : (c + 1 - 2 ^ gexp st c) + 2 ^ gexp st c - 1 = c := by omega
    rw [gblocks]
    by_cases hsp : st < c + 1 - 2 ^ gexp st c
    · rw [dif_pos hsp]
      obtain ⟨hlt, hle, hlt32, _⟩ := next_cursor_bounds hsp hc
      have hih := ih _ hlt st hle hlt32 a
      constructor
      · rintro ⟨ha1, ha2⟩
        by_cases hcase : c + 1 - 2 ^ gexp st c ≤ a
        · exact ⟨(c + 1 - 2 ^ gexp st c, gexp st c), List.mem_cons_self _ _,
            hcase, by dsimp only; omega⟩
        · obtain ⟨b, hb, hw⟩ := hih.mp ⟨ha1, by omega⟩
          exact ⟨b, List.mem_cons_of_mem _ hb, hw⟩
      · rintro ⟨b, hb, hw1, hw2⟩
        rcases List.mem_cons.mp hb with hb1 | hb2
        · subst hb1
          dsimp only at hw1 hw2
          omega
        · have hsh := gblocks_shape _ st hle hlt32 b hb2
          have := hih.mpr ⟨b, hb2, hw1, hw2⟩
          omega
    · rw [dif_neg hsp]
      have hps : c + 1 - 2 ^ gexp st c = st := by omega
      constructor
      · rintro ⟨ha1, ha2⟩
        exact ⟨(c + 1 - 2 ^ gexp st c, gexp st c), List.mem_singleton_self _,
          by dsimp only; omega, by dsimp only; omega⟩
      · rintro ⟨b, hb, hw1, hw2⟩
        rcases List.mem_singleton.mp hb with hb1
        subst hb1
        dsimp only at hw1 hw2
        omega

lemma gblocks_first :
    ∀ c st, st ≤ c →
    ∃ tl, gblocks st c = (c + 1 - 2 ^ gexp st c, gexp st c) :: tl := by
  intro c st hst
  rw [gblocks]
  by_cases hsp : st < c + 1 - 2 ^ gexp st c
  · rw [dif_pos hsp]
    exact ⟨_, rfl⟩
  · rw [dif_neg hsp]
    exact ⟨[], rfl⟩

lemma gblocks_chain :
    ∀ c st, st ≤ c → c < 2 ^ 32 →
    List.Chain' (fun x y => y.1 + 2 ^ y.2 - 1 + 1 = x.1) (gblocks st c) := by
  intro c
  induction c using Nat.strong_induction_on with
  | _ c ih =>
    intro st hst hc
    have hple := block_start_pos hst
    have hpos : 0 < 2 ^ gexp st c := Nat.two_pow_pos _
    rw [gblocks]
    by_cases hsp : st < c + 1 - 2 ^ gexp st c
    · rw [dif_pos hsp]
      obtain ⟨hlt, hle, hlt32, _⟩ := next_cursor_bounds hsp hc
      obtain ⟨tl, htl⟩ := gblocks_first (c - 2 ^ gexp st c) st hle
      refine List.chain'_cons'.mpr ⟨?_, ih _ hlt st hle hlt32⟩
      intro y hy
      rw [htl] at hy
      simp only [List.head?_cons, Option.mem_def, Option.some.injEq] at hy
      subst hy
      have hple2 := @block_start_pos st (c - 2 ^ gexp st c) hle
      have hpos2 : 0 < 2 ^ gexp st (c - 2 ^ gexp st c) := Nat.two_pow_pos _
      dsimp only
      omega
    · rw [dif_neg hsp]
      simp

lemma gblocks_last :
    ∀ c st, st ≤ c → c < 2 ^ 32 →
    ∀ b, (gblocks st c).getLast? = some b → b.1 = st := by
  intro c
  induction c using Nat.strong_induction_on with
  | _ c ih =>
    intro st hst hc b hb
    have hstp := block_start_le hst
    rw [gblocks] at hb
    by_cases hsp : st < c + 1 - 2 ^ gexp st c
    · rw [dif_pos hsp] at hb
      obtain ⟨hlt, hle, hlt32, _⟩ := next_cursor_bounds hsp hc
      obtain ⟨tl, htl⟩ := gblocks_first (c - 2 ^ gexp st c) st hle
      rw [htl, List.getLast?_cons_cons] at hb
      refine ih _ hlt st hle hlt32 b ?_
      rw [htl]
      exact hb
    · rw [dif_neg hsp] at hb
      simp only [List.getLast?_singleton, Option.some.injEq] at hb
      subst hb
      dsimp only
      omega

/-! ### Maximality of the emitted blocks

A block `(p, k)` is maximal for the range `[st, e]` when the aligned
block of twice its size containing it (which is `[p, p + 2^(k+1) - 1]`
when `2^(k+1) ∣ p` and `[p - 2^k, p + 2^k - 1]` otherwise) overshoots
`e` or undershoots `st`.  The invariant carried down the loop is: either
the blocks emitted so far cover less than `2^(tv c)` addresses below
`e` (so the strip phase is still running), or the strip candidate at
the current cursor already undershoots `st` (the retraction phase,
which then persists). -/

def MaxB (st e : Nat) (b : Nat × Nat) : Prop :=
  (2 ^ (b.2 + 1) ∣ b.1 → e < b.1 + (2 ^ (b.2 + 1) - 1)) ∧
  (¬ 2 ^ (b.2 + 1) ∣ b.1 → b.1 - 2 ^ b.2 < st)

lemma gblocks_max :
    ∀ c st e, st ≤ c → c < 2 ^ 32 → c ≤ e →
    (e < c + 2 ^ tv c ∨ c + 1 - 2 ^ tv c < st) →
    ∀ b ∈ gblocks st c, MaxB st e b := by
  intro c
  induction c using Nat.strong_induction_on with
  | _ c ih =>
    intro st e hst hc hce hinv b hb
    have hple := block_start_pos hst
    have hstp := block_start_le hst
    have hpos : 0 < 2 ^ gexp st c := Nat.two_pow_pos _
    have hket := gexp_le_tv hst
    have hpow : (2 : Nat) ^ (gexp st c + 1) = 2 ^ gexp st c + 2 ^ gexp st c := by
      rw [pow_succ]; ring
    have hpowt : (2 : Nat) ^ (tv c + 1) = 2 ^ tv c + 2 ^ tv c := by
      rw [pow_succ]; ring
    have hmax1 : MaxB st e (c + 1 - 2 ^ gexp st c, gexp st c) := by
      rcases Nat.eq_or_lt_of_le hket with hkt | hkt
      · -- no retraction: the exponent is the full trailing-ones count
        have hJ : e < c + 2 ^ tv c := by
          rcases hinv with hJ | hP2
          · exact hJ
          · rw [hkt] at hstp
            omega
        have hdvd1 : 2 ^ (gexp st c + 1) ∣ (c + 1 - 2 ^ gexp st c) := by
          rw [hkt]
          exact sub_pow_dvd_succ (tv_dvd c) (tv_not_dvd hc)
        constructor
        · intro _
          dsimp only
          rw [hkt]
          have h2 : 2 ^ tv c ≤ c + 1 := Nat.le_of_dvd (by omega) (tv_dvd c)
          omega
        · intro hnd
          exact absurd hdvd1 hnd
      · -- retraction happened: the doubled block undershoots st
        have hdvdk1 : 2 ^ (gexp st c + 1) ∣ (c + 1) := dvd_of_le_tv (by omega)
        have hlek1 : 2 ^ (gexp st c + 1) ≤ c + 1 := Nat.le_of_dvd (by omega) hdvdk1
        have hnd : ¬ 2 ^ (gexp st c + 1) ∣ (c + 1 - 2 ^ gexp st c) := by
          intro hd
          have h1 : 2 ^ (gexp st c + 1) ∣ ((c + 1) - (c + 1 - 2 ^ gexp st c)) :=
            Nat.dvd_sub' hdvdk1 hd
          have h2 : (c + 1) - (c + 1 - 2 ^ gexp st c) = 2 ^ gexp st c := by omega
          rw [h2] at h1
          have h3 := Nat.le_of_dvd (Nat.two_pow_pos _) h1
          omega
        have hunder : c + 1 < st + 2 ^ (gexp st c + 1) := gexp_not hc (by omega) hdvdk1
        constructor
        · intro hd
          exact absurd hd hnd
        · intro _
          dsimp only
          omega
    rw [gblocks] at hb
    by_cases hsp : st < c + 1 - 2 ^ gexp st c
    · rw [dif_pos hsp] at hb
      rcases List.mem_cons.mp hb with hb1 | hb2
      · subst hb1
        exact hmax1
      · obtain ⟨hlt, hle, hlt32, _⟩ := next_cursor_bounds hsp hc
        have hce' : c - 2 ^ gexp st c ≤ e := by omega
        have hinv' : e < (c - 2 ^ gexp st c) + 2 ^ tv (c - 2 ^ gexp st c) ∨
            (c - 2 ^ gexp st c) + 1 - 2 ^ tv (c - 2 ^ gexp st c) < st := by
          have hsucc : (c - 2 ^ gexp st c) + 1 = c + 1 - 2 ^ gexp st c := by omega
          rcases Nat.eq_or_lt_of_le hket with hkt | hkt
          · -- strip phase continues with a strictly larger valuation
            have hpe : (2 : Nat) ^ gexp st c = 2 ^ tv c := by rw [hkt]
            have hJ : e < c + 2 ^ tv c := by
              rcases hinv with hJ | hP2
              · exact hJ
              · omega
            have ht31 : tv c ≤ 31 := by
              have hlt32' : tv c < 32 :=
                (Nat.pow_lt_pow_iff_right (by omega : (1 : Nat) < 2)).mp (by omega)
              omega
            have hdvd1 : 2 ^ (tv c + 1) ∣ ((c - 2 ^ gexp st c) + 1) := by
              rw [hsucc, hpe]
              exact sub_pow_dvd_succ (tv_dvd c) (tv_not_dvd hc)
            have htv' : tv c + 1 ≤ tv (c - 2 ^ gexp st c) :=
              le_tv_of_dvd (by omega) hdvd1
            have hmono : (2 : Nat) ^ (tv c + 1) ≤ 2 ^ tv (c - 2 ^ gexp st c) :=
              Nat.pow_le_pow_right (by omega) htv'
            left
            omega
          · -- retraction phase persists with exact valuation gexp st c
            have hdvdk1 : 2 ^ (gexp st c + 1) ∣ (c + 1) := dvd_of_le_tv (by omega)
            have hlek1 : 2 ^ (gexp st c + 1) ≤ c + 1 := Nat.le_of_dvd (by omega) hdvdk1
            have hdvdp : 2 ^ gexp st c ∣ ((c - 2 ^ gexp st c) + 1) := by
              rw [hsucc]
              exact Nat.dvd_sub' (gexp_spec hst).1 dvd_rfl
            have hndp : ¬ 2 ^ (gexp st c + 1) ∣ ((c - 2 ^ gexp st c) + 1) := by
              rw [hsucc]
              intro hd
              have h1 : 2 ^ (gexp st c + 1) ∣ ((c + 1) - (c + 1 - 2 ^ gexp st c)) :=
                Nat.dvd_sub' hdvdk1 hd
              have h2 : (c + 1) - (c + 1 - 2 ^ gexp st c) = 2 ^ gexp st c := by omega
              rw [h2] at h1
              have h3 := Nat.le_of_dvd (Nat.two_pow_pos _) h1
              omega
            have htv' : tv (c - 2 ^ gexp st c) = gexp st c :=
              tv_eq_of_exact (gexp_le st c) hdvdp hndp
            have hunder : c + 1 < st + 2 ^ (gexp st c + 1) := gexp_not hc (by omega) hdvdk1
            right
            rw [htv', hsucc]
            omega
        exact ih _ hlt st e hle hlt32 hce' hinv' b hb2
    · rw [dif_neg hsp] at hb
      rcases List.mem_singleton.mp hb with hb1
      subst hb1
      exact hmax1

lemma gblocks_pairwise :
    ∀ c st, st ≤ c → c < 2 ^ 32 →
    List.Pairwise (fun x y => y.1 + 2 ^ y.2 - 1 < x.1) (gblocks st c) := by
  intro c
  induction c using Nat.strong_induction_on with
  | _ c ih =>
    intro st hst hc
    rw [gblocks]
    by_cases hsp : st < c + 1 - 2 ^ gexp st c
    · rw [dif_pos hsp]
      obtain ⟨hlt, hle, hlt32, _⟩ := next_cursor_bounds hsp hc
      refine List.pairwise_cons.mpr ⟨?_, ih _ hlt st hle hlt32⟩
      intro y hy
      have hsh := gblocks_shape _ st hle hlt32 y hy
      have hpos : 0 < 2 ^ gexp st c := Nat.two_pow_pos _
      have hple := @block_start_pos st c hst
      omega
    · rw [dif_neg hsp]
      simp

/-! ### Minimality among all aligned decompositions -/

/-- Membership of an address in an abstract aligned block given as a
`(start, exponent)` pair. -/
def inBlock (b : Nat × Nat) (a : Nat) : Prop :=
  b.1 ≤ a ∧ a ≤ b.1 + 2 ^ b.2 - 1

/-- A decomposition of `[st, e]` into aligned power-of-two blocks:
every block starts at a multiple of its size and lies inside `[st, e]`,
every address of `[st, e]` is covered, and the blocks are pairwise
disjoint. -/
def isDecomp (st e : Nat) (L : List (Nat × Nat)) : Prop :=
  (∀ b ∈ L, 2 ^ b.2 ∣ b.1 ∧ st ≤ b.1 ∧ b.1 + 2 ^ b.2 - 1 ≤ e) ∧
  (∀ a, a < e + 1 → st ≤ a → ∃ b ∈ L, inBlock b a) ∧
  List.Pairwise (fun b1 b2 => b1.1 + 2 ^ b1.2 - 1 < b2.1 ∨ b2.1 + 2 ^ b2.2 - 1 < b1.1) L

instance inBlock_dec (b : Nat × Nat) (a : Nat) : Decidable (inBlock b a) := by
  unfold inBlock
  infer_instance

instance isDecomp_dec (st e : Nat) (L : List (Nat × Nat)) : Decidable (isDecomp st e L) := by
  unfold isDecomp
  infer_instance

lemma gblocks_isDecomp {st c : Nat} (hst : st ≤ c) (hc : c < 2 ^ 32) :
    isDecomp st c (gblocks st c) := by
  refine ⟨?_, ?_, ?_⟩
  · intro b hb
    have h := gblocks_shape c st hst hc b hb
    exact ⟨h.2.1, h.1, h.2.2.2⟩
  · intro a h1 h2
    obtain ⟨b, hb, hw⟩ := (gblocks_cover c st hst hc a).mp ⟨h2, by omega⟩
    exact ⟨b, hb, hw⟩
  · exact (gblocks_pairwise c st hst hc).imp (fun h => Or.inr h)

lemma exp_le_32_of_le {j : Nat} (h : 2 ^ j ≤ 2 ^ 32) : j ≤ 32 := by
  by_contra h3
  have h4 : (2 : Nat) ^ 33 ≤ 2 ^ j := Nat.pow_le_pow_right (by omega) (by omega)
  have := pow33
  omega

lemma le_gexp {st c j : Nat} (hj : j ≤ 32) (h1 : 2 ^ j ∣ (c + 1))
    (h2 : st + 2 ^ j ≤ c + 1) : j ≤ gexp st c :=
  Nat.le_findGreatest (P := fun j => 2 ^ j ∣ (c + 1) ∧ st + 2 ^ j ≤ c + 1) hj ⟨h1, h2⟩

/-- Removing more addresses from the top of the range with a single
bigger aligned block can only shorten the greedy decomposition of what
is left. -/
lemma gblocks_len_mono :
    ∀ n j g X st, n = g - j → j ≤ g → 2 ^ j ∣ X → 2 ^ g ∣ X →
    st + 2 ^ g < X → X ≤ 2 ^ 32 →
    (gblocks st (X - 2 ^ g - 1)).length ≤ (gblocks st (X - 2 ^ j - 1)).length := by
  intro n
  induction n with
  | zero =>
    intro j g X st hn hjg hdj hdg hlt hX
    have hj : j = g := by omega
    subst hj
    exact le_refl _
  | succ n ih =>
    intro j g X st hn hjg hdj hdg hlt hX
    have hjg' : j < g := by omega
    have hposj : 0 < 2 ^ j := Nat.two_pow_pos j
    have hposg : 0 < 2 ^ g := Nat.two_pow_pos g
    have hlejg : (2 : Nat) ^ (j + 1) ≤ 2 ^ g := Nat.pow_le_pow_right (by omega) (by omega)
    have hpowj : (2 : Nat) ^ (j + 1) = 2 ^ j + 2 ^ j := by rw [pow_succ]; ring
    have hdj1 : 2 ^ (j + 1) ∣ X := dvd_trans (pow_dvd_pow 2 (by omega)) hdg
    have hXj : 2 ^ j ≤ X := by omega
    have hj32 : j ≤ 32 := exp_le_32_of_le (by omega)
    set c' := X - 2 ^ j - 1 with hc'
    have hsucc : c' + 1 = X - 2 ^ j := by omega
    have hdvdc : 2 ^ j ∣ (c' + 1) := by
      rw [hsucc]
      exact Nat.dvd_sub' hdj dvd_rfl
    have hndvdc : ¬ 2 ^ (j + 1) ∣ (c' + 1) := by
      rw [hsucc]
      intro hd
      have h1 : 2 ^ (j + 1) ∣ (X - (X - 2 ^ j)) := Nat.dvd_sub' hdj1 hd
      have h2 : X - (X - 2 ^ j) = 2 ^ j := by omega
      rw [h2] at h1
      have h3 := Nat.le_of_dvd (by omega) h1
      omega
    have htvc : tv c' = j := tv_eq_of_exact hj32 hdvdc hndvdc
    have hstc : st ≤ c' := by omega
    have hgexp : gexp st c' = j := by
      have h1 : gexp st c' ≤ tv c' := gexp_le_tv hstc
      have h2 : j ≤ gexp st c' := le_gexp hj32 hdvdc (by omega)
      omega
    have hblk : gblocks st c' = (c' + 1 - 2 ^ j, j) :: gblocks st (c' - 2 ^ j) := by
      rw [gblocks, hgexp, dif_pos (by omega)]
    have hnext : c' - 2 ^ j = X - 2 ^ (j + 1) - 1 := by omega
    have := ih (j + 1) g X st (by omega) (by omega) hdj1 hdg hlt hX
    rw [hblk, hnext]
    simp only [List.length_cons]
    omega

/-- Removing the unique block that covers the top address of the range
from a decomposition leaves a decomposition of the rest of the range. -/
lemma isDecomp_erase {st c j : Nat} {L : List (Nat × Nat)}
    (hL : isDecomp st c L) (hb : (c + 1 - 2 ^ j, j) ∈ L) (hq : 2 ^ j ≤ c + 1)
    (hsp : st < c + 1 - 2 ^ j) :
    isDecomp st (c - 2 ^ j) (L.erase (c + 1 - 2 ^ j, j)) ∧
      (L.erase (c + 1 - 2 ^ j, j)).length + 1 = L.length := by
  obtain ⟨hblocks, hcover, hpair⟩ := hL
  have hself : ∀ b : Nat × Nat, ¬ (b.1 + 2 ^ b.2 - 1 < b.1 ∨ b.1 + 2 ^ b.2 - 1 < b.1) := by
    intro b h
    have := Nat.two_pow_pos b.2
    omega
  have hnd : L.Nodup := by
    refine hpair.imp ?_
    intro a b hrel heq
    subst heq
    exact hself a hrel
  have hsym : Symmetric (fun b1 b2 : Nat × Nat =>
      b1.1 + 2 ^ b1.2 - 1 < b2.1 ∨ b2.1 + 2 ^ b2.2 - 1 < b1.1) := by
    intro x y h
    rcases h with h | h
    · exact Or.inr h
    · exact Or.inl h
  have hposj : 0 < 2 ^ j := Nat.two_pow_pos j
  refine ⟨⟨?_, ?_, ?_⟩, ?_⟩
  · intro b hbe
    have hbL := List.mem_of_mem_erase hbe
    have hbne : b ≠ (c + 1 - 2 ^ j, j) := ((hnd.mem_erase_iff).mp hbe).1
    have hprops := hblocks b hbL
    refine ⟨hprops.1, hprops.2.1, ?_⟩
    by_contra htop
    have hposb : 0 < 2 ^ b.2 := Nat.two_pow_pos b.2
    have hrel := hpair.forall hsym hbL hb hbne
    have htople := hprops.2.2
    dsimp only at hrel
    omega
  · intro a h1 h2
    obtain ⟨b, hbL, hin⟩ := hcover a (by omega) h2
    have hbne : b ≠ (c + 1 - 2 ^ j, j) := by
      intro heq
      subst heq
      obtain ⟨hin1, _⟩ := hin
      dsimp only at hin1
      omega
    exact ⟨b, (List.mem_erase_of_ne hbne).mpr hbL, hin⟩
  · exact hpair.sublist (List.erase_sublist _ _)
  · have h1 := List.length_erase_of_mem hb
    have h2 : 0 < L.length := List.length_pos.mpr (List.ne_nil_of_mem hb)
    omega

/-- Minimality of the greedy decomposition: every aligned decomposition
of `[st, c]` has at least as many blocks. -/
lemma gblocks_min :
    ∀ c st, st ≤ c → c < 2 ^ 32 →
    ∀ L, isDecomp st c L → (gblocks st c).length ≤ L.length := by
  intro c
  induction c using Nat.strong_induction_on with
  | _ c ih =>
    intro st hst hc L hL
    obtain ⟨b, hbL, hin⟩ := hL.2.1 c (by omega) hst
    have hprops := hL.1 b hbL
    have hposb : 0 < 2 ^ b.2 := Nat.two_pow_pos b.2
    have htop : b.1 + 2 ^ b.2 - 1 = c := by
      obtain ⟨h1, h2⟩ := hin
      have := hprops.2.2
      omega
    have hble : 2 ^ b.2 ≤ c + 1 := by omega
    have hbeq : b.1 = c + 1 - 2 ^ b.2 := by omega
    have hdvdc1 : 2 ^ b.2 ∣ (c + 1) := by
      have h1 : c + 1 = b.1 + 2 ^ b.2 := by omega
      rw [h1]
      exact Nat.dvd_add hprops.1 dvd_rfl
    have hj32 : b.2 ≤ 32 := exp_le_32_of_le (by omega)
    have hjg : b.2 ≤ gexp st c := le_gexp hj32 hdvdc1 (by
      have := hprops.2.1
      omega)
    have hple := block_start_pos hst
    have hposg : 0 < 2 ^ gexp st c := Nat.two_pow_pos _
    have hLpos : 0 < L.length := List.length_pos.mpr (List.ne_nil_of_mem hbL)
    by_cases hsp : st < c + 1 - 2 ^ gexp st c
    · -- the greedy decomposition continues below its first block
      have hspj : st < c + 1 - 2 ^ b.2 := by
        have : (2 : Nat) ^ b.2 ≤ 2 ^ gexp st c := Nat.pow_le_pow_right (by omega) hjg
        omega
      have hblk : gblocks st c =
          (c + 1 - 2 ^ gexp st c, gexp st c) :: gblocks st (c - 2 ^ gexp st c) := by
        rw [gblocks, dif_pos hsp]
      have hb' : (c + 1 - 2 ^ b.2, b.2) ∈ L := by
        have : b = (c + 1 - 2 ^ b.2, b.2) := by
          rw [← hbeq]
        rw [← this]
        exact hbL
      obtain ⟨hdec', hlen'⟩ := isDecomp_erase hL hb' hble hspj
      have hih := ih (c - 2 ^ b.2) (by omega) st (by omega) (by omega) _ hdec'
      have hmono := gblocks_len_mono (gexp st c - b.2) b.2 (gexp st c) (c + 1) st
        rfl hjg hdvdc1 (gexp_spec hst).1 (by omega) (by omega)
      have he1 : c + 1 - 2 ^ gexp st c - 1 = c - 2 ^ gexp st c := by omega
      have he2 : c + 1 - 2 ^ b.2 - 1 = c - 2 ^ b.2 := by omega
      rw [he1, he2] at hmono
      rw [hblk]
      simp only [List.length_cons]
      omega
    · -- the greedy decomposition is a single block
      have hblk : gblocks st c = [(c + 1 - 2 ^ gexp st c, gexp st c)] := by
        rw [gblocks, dif_neg hsp]
      rw [hblk]
      simpa using hLpos

/-! ### Capacity bounds

The sum of the block sizes is the width of the range.  For `st = 0` no
retraction ever happens, so the exponents strictly increase down the
list and the sum of the (then pairwise distinct) powers of two bounds
the length by 32.  For ranges inside `[0, 255]` the exponents stay at
most 8 and the run splits into an increasing phase followed by a
decreasing phase, bounding the length by 18. -/

lemma gblocks_sum :
    ∀ c st, st ≤ c → c < 2 ^ 32 →
    ((gblocks st c).map (fun b => 2 ^ b.2)).sum = c + 1 - st := by
  intro c
  induction c using Nat.strong_induction_on with
  | _ c ih =>
    intro st hst hc
    have hple := block_start_pos hst
    have hstp := block_start_le hst
    have hpos : 0 < 2 ^ gexp st c := Nat.two_pow_pos _
    rw [gblocks]
    by_cases hsp : st < c + 1 - 2 ^ gexp st c
    · rw [dif_pos hsp]
      obtain ⟨hlt, hle, hlt32, _⟩ := next_cursor_bounds hsp hc
      have := ih _ hlt st hle hlt32
      simp only [List.map_cons, List.sum_cons, this]
      omega
    · rw [dif_neg hsp]
      simp only [List.map_cons, List.map_nil, List.sum_cons, List.sum_nil]
      omega

lemma gexp_zero {c : Nat} : gexp 0 c = tv c := by
  have h1 : gexp 0 c ≤ tv c := gexp_le_tv (Nat.zero_le c)
  have h2 : tv c ≤ gexp 0 c :=
    le_gexp (tv_le c) (tv_dvd c) (by
      have := Nat.le_of_dvd (by omega) (tv_dvd c)
      omega)
  omega

lemma gblocks_zero_exps :
    ∀ c, c < 2 ^ 32 →
    List.Chain' (fun x y : Nat × Nat => x.2 < y.2) (gblocks 0 c) := by
  intro c
  induction c using Nat.strong_induction_on with
  | _ c ih =>
    intro hc
    have hstp := @block_start_le 0 c (Nat.zero_le c)
    have hple := @block_start_pos 0 c (Nat.zero_le c)
    have hpos : 0 < 2 ^ gexp 0 c := Nat.two_pow_pos _
    rw [gblocks]
    by_cases hsp : 0 < c + 1 - 2 ^ gexp 0 c
    · rw [dif_pos hsp]
      obtain ⟨hlt, hle, hlt32, _⟩ := next_cursor_bounds hsp hc
      refine List.chain'_cons'.mpr ⟨?_, ih _ hlt hlt32⟩
      intro y hy
      obtain ⟨tl, htl⟩ := gblocks_first (c - 2 ^ gexp 0 c) 0 (Nat.zero_le _)
      rw [htl] at hy
      simp only [List.head?_cons, Option.mem_def, Option.some.injEq] at hy
      subst hy
      dsimp only
      -- the next exponent is at least `gexp 0 c + 1`
      have ht31 : gexp 0 c ≤ 31 := by
        have h2t : 2 ^ gexp 0 c ≤ c := by omega
        have h : gexp 0 c < 32 :=
          (Nat.pow_lt_pow_iff_right (by omega : (1 : Nat) < 2)).mp (by omega)
        omega
      have hsucc : (c - 2 ^ gexp 0 c) + 1 = c + 1 - 2 ^ gexp 0 c := by omega
      have hdvd1 : 2 ^ (gexp 0 c + 1) ∣ ((c - 2 ^ gexp 0 c) + 1) := by
        rw [hsucc, gexp_zero]
        exact sub_pow_dvd_succ (tv_dvd c) (tv_not_dvd hc)
      exact le_gexp (by omega) hdvd1
        (by
          have := Nat.le_of_dvd (by omega) hdvd1
          omega)
    · rw [dif_neg hsp]
      simp

lemma chain_exp_len :
    ∀ (L : List (Nat × Nat)) (b : Nat × Nat),
    List.Chain' (fun x y : Nat × Nat => x.2 < y.2) (b :: L) →
    2 ^ (b.2 + (b :: L).length) ≤ ((b :: L).map (fun x => 2 ^ x.2)).sum + 2 ^ b.2 := by
  intro L
  induction L with
  | nil =>
    intro b _
    have hp : (2 : Nat) ^ (b.2 + 1) = 2 ^ b.2 + 2 ^ b.2 := by rw [pow_succ]; ring
    simp only [List.length_singleton, List.map_cons, List.map_nil, List.sum_cons,
      List.sum_nil]
    omega
  | cons b' L' ih =>
    intro b hch
    obtain ⟨hrel, hch'⟩ := List.chain'_cons.mp hch
    have hIH := ih b' hch'
    have hA : (2 : Nat) ^ (b.2 + 1) ≤ 2 ^ b'.2 := Nat.pow_le_pow_right (by omega) hrel
    have hP1 : 1 ≤ 2 ^ (b' :: L').length := Nat.one_le_two_pow
    have e1 : (2 : Nat) ^ (b'.2 + (b' :: L').length)
        = 2 ^ b'.2 * 2 ^ (b' :: L').length := pow_add 2 _ _
    have e2 : (2 : Nat) ^ (b.2 + 1 + (b' :: L').length)
        = 2 ^ (b.2 + 1) * 2 ^ (b' :: L').length := pow_add 2 _ _
    have e3 : b.2 + (b :: b' :: L').length = b.2 + 1 + (b' :: L').length := by
      simp only [List.length_cons]
      omega
    have s1 : 2 ^ b'.2 * 2 ^ (b' :: L').length
        = 2 ^ b'.2 * (2 ^ (b' :: L').length - 1) + 2 ^ b'.2 := by
      calc 2 ^ b'.2 * 2 ^ (b' :: L').length
          = 2 ^ b'.2 * (2 ^ (b' :: L').length - 1 + 1) := by rw [Nat.sub_add_cancel hP1]
        _ = 2 ^ b'.2 * (2 ^ (b' :: L').length - 1) + 2 ^ b'.2 := by ring
    have s2 : 2 ^ (b.2 + 1) * 2 ^ (b' :: L').length
        = 2 ^ (b.2 + 1) * (2 ^ (b' :: L').length - 1) + 2 ^ (b.2 + 1) := by
      calc 2 ^ (b.2 + 1) * 2 ^ (b' :: L').length
          = 2 ^ (b.2 + 1) * (2 ^ (b' :: L').length - 1 + 1) := by
            rw [Nat.sub_add_cancel hP1]
        _ = 2 ^ (b.2 + 1) * (2 ^ (b' :: L').length - 1) + 2 ^ (b.2 + 1) := by ring
    have hmul : 2 ^ (b.2 + 1) * (2 ^ (b' :: L').length - 1)
        ≤ 2 ^ b'.2 * (2 ^ (b' :: L').length - 1) :=
      Nat.mul_le_mul_right _ hA
    have hpow1 : (2 : Nat) ^ (b.2 + 1) = 2 ^ b.2 + 2 ^ b.2 := by rw [pow_succ]; ring
    rw [e3, e2]
    rw [e1] at hIH
    simp only [List.map_cons, List.sum_cons] at hIH ⊢
    omega

lemma gblocks_zero_len {e : Nat} (he : e < 2 ^ 32) : (gblocks 0 e).length ≤ 32 := by
  by_contra hlen
  obtain ⟨tl, htl⟩ := gblocks_first e 0 (Nat.zero_le e)
  have hch := gblocks_zero_exps e he
  have hsum := gblocks_sum e 0 (Nat.zero_le e) he
  rw [htl] at hch hsum hlen
  have hkey := chain_exp_len tl _ hch
  rw [hsum] at hkey
  set b := (e + 1 - 2 ^ gexp 0 e, gexp 0 e) with hb
  have h33 : b.2 + 33 ≤ b.2 + (b :: tl).length := by
    simp only [List.length_cons] at hlen ⊢
    omega
  have hmono : (2 : Nat) ^ (b.2 + 33) ≤ 2 ^ (b.2 + (b :: tl).length) :=
    Nat.pow_le_pow_right (by omega) h33
  have hsplit : (2 : Nat) ^ (b.2 + 33) = 2 ^ b.2 * 2 ^ 33 := pow_add 2 _ _
  have hs1 : (2 : Nat) ^ b.2 * 2 ^ 33 = 2 ^ b.2 * (2 ^ 33 - 1) + 2 ^ b.2 := by
    calc (2 : Nat) ^ b.2 * 2 ^ 33 = 2 ^ b.2 * (2 ^ 33 - 1 + 1) := by norm_num
      _ = 2 ^ b.2 * (2 ^ 33 - 1) + 2 ^ b.2 := by ring
  have hs2 : 1 * ((2 : Nat) ^ 33 - 1) ≤ 2 ^ b.2 * (2 ^ 33 - 1) :=
    Nat.mul_le_mul_right _ Nat.one_le_two_pow
  have hv : (2 : Nat) ^ 33 = 8589934592 := by norm_num
  have hv32 : (2 : Nat) ^ 32 = 4294967296 := by norm_num
  omega

/-- For `st = 0` the conversion always succeeds: the decomposition is a
sum of distinct powers of two, hence at most 32 blocks. -/
lemma range2masks_zero {e : Nat} (he : e < 2 ^ 32) :
    range2masks 0 e = .ok ((gblocks 0 e).map blkEnt) := by
  rw [range2masks_eq (Nat.zero_le e) he (fun _ => rfl),
    if_pos (gblocks_zero_len he)]

/-- Once a retraction has happened, every subsequent block retracts as
well and the exponents strictly decrease. -/
lemma gblocks_retract_chain :
    ∀ c st, st ≤ c → c < 2 ^ 32 → gexp st c < tv c →
    List.Chain' (fun x y : Nat × Nat => y.2 < x.2) (gblocks st c) := by
  intro c
  induction c using Nat.strong_induction_on with
  | _ c ih =>
    intro st hst hc hretr
    have hstp := block_start_le hst
    have hple := block_start_pos hst
    have hpos : 0 < 2 ^ gexp st c := Nat.two_pow_pos _
    rw [gblocks]
    by_cases hsp : st < c + 1 - 2 ^ gexp st c
    · rw [dif_pos hsp]
      obtain ⟨hlt, hle, hlt32, _⟩ := next_cursor_bounds hsp hc
      have hdvdk1 : 2 ^ (gexp st c + 1) ∣ (c + 1) := dvd_of_le_tv (by omega)
      have hlek1 : 2 ^ (gexp st c + 1) ≤ c + 1 := Nat.le_of_dvd (by omega) hdvdk1
      have hunder : c + 1 < st + 2 ^ (gexp st c + 1) := gexp_not hc (by omega) hdvdk1
      have hsucc : (c - 2 ^ gexp st c) + 1 = c + 1 - 2 ^ gexp st c := by omega
      have hdvdp : 2 ^ gexp st c ∣ ((c - 2 ^ gexp st c) + 1) := by
        rw [hsucc]
        exact Nat.dvd_sub' (gexp_spec hst).1 dvd_rfl
      have hndp : ¬ 2 ^ (gexp st c + 1) ∣ ((c - 2 ^ gexp st c) + 1) := by
        rw [hsucc]
        intro hd
        have h1 : 2 ^ (gexp st c + 1) ∣ ((c + 1) - (c + 1 - 2 ^ gexp st c)) :=
          Nat.dvd_sub' hdvdk1 hd
        have h2 : (c + 1) - (c + 1 - 2 ^ gexp st c) = 2 ^ gexp st c := by omega
        rw [h2] at h1
        have h3 := Nat.le_of_dvd (Nat.two_pow_pos _) h1
        omega
      have htv' : tv (c - 2 ^ gexp st c) = gexp st c :=
        tv_eq_of_exact (gexp_le st c) hdvdp hndp
      have hretr' : gexp st (c - 2 ^ gexp st c) < tv (c - 2 ^ gexp st c) := by
        rcases Nat.lt_or_ge (gexp st (c - 2 ^ gexp st c)) (tv (c - 2 ^ gexp st c))
          with h | h
        · exact h
        · exfalso
          have heq : gexp st (c - 2 ^ gexp st c) = tv (c - 2 ^ gexp st c) := by
            have := gexp_le_tv hle
            omega
          have hspec := (@gexp_spec st (c - 2 ^ gexp st c) hle).2
          rw [heq, htv'] at hspec
          have hpow : (2 : Nat) ^ (gexp st c + 1) = 2 ^ gexp st c + 2 ^ gexp st c := by
            rw [pow_succ]; ring
          omega
      refine List.chain'_cons'.mpr ⟨?_, ih _ hlt st hle hlt32 hretr'⟩
      intro y hy
      obtain ⟨tl, htl⟩ := gblocks_first (c - 2 ^ gexp st c) st hle
      rw [htl] at hy
      simp only [List.head?_cons, Option.mem_def, Option.some.injEq] at hy
      subst hy
      dsimp only
      have h1 : gexp st (c - 2 ^ gexp st c) ≤ tv (c - 2 ^ gexp st c) := gexp_le_tv hle
      omega
    · rw [dif_neg hsp]
      simp

/-- The greedy run splits into a strictly increasing phase (no
retraction yet) followed by a strictly decreasing phase (retractions). -/
lemma gblocks_phases :
    ∀ c st, st ≤ c → c < 2 ^ 32 →
    ∃ L1 L2, gblocks st c = L1 ++ L2 ∧
      List.Chain' (fun x y : Nat × Nat => x.2 < y.2) L1 ∧
      List.Chain' (fun x y : Nat × Nat => y.2 < x.2) L2 := by
  intro c
  induction c using Nat.strong_induction_on with
  | _ c ih =>
    intro st hst hc
    have hstp := block_start_le hst
    have hple := block_start_pos hst
    have hpos : 0 < 2 ^ gexp st c := Nat.two_pow_pos _
    rcases Nat.lt_or_ge (gexp st c) (tv c) with hretr | hnoretr
    · exact ⟨[], gblocks st c, by simp, List.chain'_nil,
        gblocks_retract_chain c st hst hc hretr⟩
    · have hkt : gexp st c = tv c := by
        have := gexp_le_tv hst
        omega
      rw [gblocks]
      by_cases hsp : st < c + 1 - 2 ^ gexp st c
      · rw [dif_pos hsp]
        obtain ⟨hlt, hle, hlt32, _⟩ := next_cursor_bounds hsp hc
        rcases Nat.lt_or_ge (gexp st (c - 2 ^ gexp st c)) (tv (c - 2 ^ gexp st c))
          with hretr' | hnoretr'
        · exact ⟨[(c + 1 - 2 ^ gexp st c, gexp st c)], gblocks st (c - 2 ^ gexp st c),
            by simp, List.chain'_singleton _,
            gblocks_retract_chain _ st hle hlt32 hretr'⟩
        · -- the next block does not retract either: its exponent exceeds ours
          have ht31 : gexp st c ≤ 31 := by
            have h2t : 2 ^ gexp st c ≤ c := by omega
            have h : gexp st c < 32 :=
              (Nat.pow_lt_pow_iff_right (by omega : (1 : Nat) < 2)).mp (by omega)
            omega
          have hsucc : (c - 2 ^ gexp st c) + 1 = c + 1 - 2 ^ gexp st c := by omega
          have hdvd1 : 2 ^ (gexp st c + 1) ∣ ((c - 2 ^ gexp st c) + 1) := by
            rw [hsucc, hkt]
            exact sub_pow_dvd_succ (tv_dvd c) (tv_not_dvd hc)
          have htvnext : gexp st c + 1 ≤ tv (c - 2 ^ gexp st c) :=
            le_tv_of_dvd (by omega) hdvd1
          have hgexp_next : gexp st c < gexp st (c - 2 ^ gexp st c) := by omega
          obtain ⟨L1, L2, hsplit, hch1, hch2⟩ := ih _ hlt st hle hlt32
          obtain ⟨tl, htl⟩ := gblocks_first (c - 2 ^ gexp st c) st hle
          cases L1 with
          | nil =>
            refine ⟨[(c + 1 - 2 ^ gexp st c, gexp st c)], L2, ?_, ?_, hch2⟩
            · simp only [List.nil_append] at hsplit
              simp [hsplit]
            · exact List.chain'_singleton _
          | cons b1 L1' =>
            have hb1 : b1 = (c - 2 ^ gexp st c + 1 - 2 ^ gexp st (c - 2 ^ gexp st c),
                gexp st (c - 2 ^ gexp st c)) := by
              have h1 : gblocks st (c - 2 ^ gexp st c) = b1 :: (L1' ++ L2) := by
                rw [hsplit]
                simp
              rw [htl] at h1
              exact (List.cons.injEq _ _ _ _ ▸ h1).1.symm
            refine ⟨(c + 1 - 2 ^ gexp st c, gexp st c) :: b1 :: L1', L2, ?_, ?_, hch2⟩
            · rw [hsplit]
              simp
            · refine List.chain'_cons.mpr ⟨?_, hch1⟩
              rw [hb1]
              dsimp only
              omega
      · rw [dif_neg hsp]
        exact ⟨[(c + 1 - 2 ^ gexp st c, gexp st c)], [], by simp,
          List.chain'_singleton _, List.chain'_nil⟩

lemma chain_lt_len :
    ∀ (L : List (Nat × Nat)) (m M : Nat), m ≤ M + 1 →
    List.Chain' (fun x y : Nat × Nat => x.2 < y.2) L →
    (∀ b ∈ L.head?, m ≤ b.2) → (∀ b ∈ L, b.2 ≤ M) →
    L.length + m ≤ M + 1 := by
  intro L
  induction L with
  | nil =>
    intro m M hm _ _ _
    simpa using hm
  | cons b L' ih =>
    intro m M hm hch hhead hall
    have hb : m ≤ b.2 := hhead b rfl
    have hbM : b.2 ≤ M := hall b (List.mem_cons_self _ _)
    have hch' : List.Chain' (fun x y : Nat × Nat => x.2 < y.2) L' := hch.tail
    have hhead' : ∀ b' ∈ L'.head?, b.2 + 1 ≤ b'.2 := by
      intro b' hb'
      have := List.chain'_cons'.mp hch
      exact this.1 b' hb'
    have hall' : ∀ b' ∈ L', b'.2 ≤ M := fun b' hb' =>
      hall b' (List.mem_cons_of_mem _ hb')
    have := ih (b.2 + 1) M (by omega) hch' hhead' hall'
    simp only [List.length_cons]
    omega

lemma chain_gt_len :
    ∀ (L : List (Nat × Nat)) (m : Nat),
    List.Chain' (fun x y : Nat × Nat => y.2 < x.2) L →
    (∀ b ∈ L.head?, b.2 ≤ m) →
    L.length ≤ m + 1 := by
  intro L
  induction L with
  | nil =>
    intro m _ _
    simp
  | cons b L' ih =>
    intro m hch hhead
    have hb : b.2 ≤ m := hhead b rfl
    have hch' : List.Chain' (fun x y : Nat × Nat => y.2 < x.2) L' := hch.tail
    have hhead' : ∀ b' ∈ L'.head?, b'.2 ≤ b.2 - 1 := by
      intro b' hb'
      have := (List.chain'_cons'.mp hch).1 b' hb'
      omega
    have := ih (b.2 - 1) hch' hhead'
    simp only [List.length_cons]
    by_cases hbz : b.2 = 0
    · cases L' with
      | nil => simp
      | cons b'' L'' =>
        exfalso
        have := (List.chain'_cons'.mp hch).1 b'' (by simp)
        omega
    · omega

/-- For ranges inside `[0, 255]` every block exponent is at most 8, so
the two phases together have at most 18 blocks. -/
lemma gblocks_small_len {st c : Nat} (hst : st ≤ c) (hc255 : c ≤ 255) :
    (gblocks st c).length ≤ 32 := by
  have hc : c < 2 ^ 32 := by
    have : (2 : Nat) ^ 32 = 4294967296 := by norm_num
    omega
  have hexp : ∀ b ∈ gblocks st c, b.2 ≤ 8 := by
    intro b hb
    have hsh := gblocks_shape c st hst hc b hb
    have hps : 0 < 2 ^ b.2 := Nat.two_pow_pos _
    by_contra hb8
    have h9 : (2 : Nat) ^ 9 ≤ 2 ^ b.2 := Nat.pow_le_pow_right (by omega) (by omega)
    have : (2 : Nat) ^ 9 = 512 := by norm_num
    omega
  obtain ⟨L1, L2, hsplit, hch1, hch2⟩ := gblocks_phases c st hst hc
  have hlen1 : L1.length ≤ 9 := by
    have h := chain_lt_len L1 0 8 (by omega) hch1 (by simp) (by
      intro b hb
      exact hexp b (by rw [hsplit]; exact List.mem_append_left _ hb))
    omega
  have hlen2 : L2.length ≤ 9 := by
    cases L2 with
    | nil => simp
    | cons b2 L2' =>
      have h := chain_gt_len (b2 :: L2') 8 hch2 (by
        intro b hb
        simp only [List.head?_cons, Option.mem_def, Option.some.injEq] at hb
        subst hb
        exact hexp b2 (by
          rw [hsplit]
          exact List.mem_append_right _ (List.mem_cons_self _ _)))
      omega
  rw [hsplit]
  simp only [List.length_append]
  omega

/-- Conversions of sub-256 ranges always succeed. -/
lemma range2masks_small {st e : Nat} (hse : st ≤ e) (he : e ≤ 255) :
    range2masks st e = .ok ((gblocks st e).map blkEnt) := by
  have hlt : e < 2 ^ 32 := by
    have : (2 : Nat) ^ 32 = 4294967296 := by norm_num
    omega
  have hg : e = 2 ^ 32 - 1 → st = 0 := by
    intro h
    have : (2 : Nat) ^ 32 = 4294967296 := by norm_num
    omega
  rw [range2masks_eq hse hlt hg, if_pos (gblocks_small_len hse he)]

/-! ### The shape of the emitted masks and the block top address -/

lemma allOnesShl_eq {k : Nat} (hk : k ≤ 32) : allOnesShl k = 2 ^ 32 - 2 ^ k := by
  have h2k : (2 : Nat) ^ k ≤ 2 ^ 32 := Nat.pow_le_pow_right (by omega) hk
  have hpos32 : 0 < (2 : Nat) ^ 32 := Nat.two_pow_pos 32
  have hposk : 0 < (2 : Nat) ^ k := Nat.two_pow_pos k
  rw [allOnesShl, Nat.shiftLeft_eq]
  have e2 : (2 ^ 32 - 1) * 2 ^ k + 2 ^ k = 2 ^ 32 * 2 ^ k := by
    have h1 : (2 : Nat) ^ 32 - 1 + 1 = 2 ^ 32 := by omega
    calc (2 ^ 32 - 1) * 2 ^ k + 2 ^ k = ((2 ^ 32 - 1) + 1) * 2 ^ k := by ring
      _ = 2 ^ 32 * 2 ^ k := by rw [h1]
  have e3 : 2 ^ 32 * (2 ^ k - 1) + 2 ^ 32 = 2 ^ 32 * 2 ^ k := by
    have h1 : (2 : Nat) ^ k - 1 + 1 = 2 ^ k := by omega
    calc 2 ^ 32 * (2 ^ k - 1) + 2 ^ 32 = 2 ^ 32 * ((2 ^ k - 1) + 1) := by ring
      _ = 2 ^ 32 * 2 ^ k := by rw [h1]
  have h1 : (2 ^ 32 - 1) * 2 ^ k = 2 ^ 32 * (2 ^ k - 1) + (2 ^ 32 - 2 ^ k) := by
    omega
  rw [h1, Nat.mul_add_mod, Nat.mod_eq_of_lt (by omega)]

lemma blockTopE_eq {p k : Nat} (hk : k ≤ 32) (hdvd : 2 ^ k ∣ p)
    (hlt : p + 2 ^ k - 1 < 2 ^ 32) :
    blockTopE ⟨p, 2 ^ 32 - 2 ^ k⟩ = p + 2 ^ k - 1 := by
  obtain ⟨q, hq⟩ := hdvd
  subst hq
  have hposk : 0 < (2 : Nat) ^ k := Nat.two_pow_pos k
  have hp32 : (2 : Nat) ^ 32 = 2 ^ k * 2 ^ (32 - k) := by
    rw [← pow_add]
    congr 1
    omega
  have hpos32k : 0 < (2 : Nat) ^ (32 - k) := Nat.two_pow_pos _
  have hmask : (2 : Nat) ^ 32 - 2 ^ k = 2 ^ k * (2 ^ (32 - k) - 1) := by
    have e3 : 2 ^ k * (2 ^ (32 - k) - 1) + 2 ^ k = 2 ^ k * 2 ^ (32 - k) := by
      have h1 : (2 : Nat) ^ (32 - k) - 1 + 1 = 2 ^ (32 - k) := by omega
      calc 2 ^ k * (2 ^ (32 - k) - 1) + 2 ^ k = 2 ^ k * ((2 ^ (32 - k) - 1) + 1) := by
            ring
        _ = 2 ^ k * 2 ^ (32 - k) := by rw [h1]
    omega
  have hmul : ∀ (a i : Nat),
      Nat.testBit (2 ^ k * a) i = if i < k then false else Nat.testBit a (i - k) := by
    intro a i
    have h := Nat.testBit_mul_pow_two_add a (Nat.two_pow_pos k) i
    rw [Nat.add_zero] at h
    rw [h]
    by_cases hik : i < k
    · simp [hik]
    · simp [hik]
  have hq32 : q < 2 ^ (32 - k) := by
    by_contra hcon
    have h1 : 2 ^ k * 2 ^ (32 - k) ≤ 2 ^ k * q :=
      Nat.mul_le_mul_left _ (by omega)
    omega
  have hbq : ∀ i, 32 ≤ i → Nat.testBit q (i - k) = false := by
    intro i h32
    apply Nat.testBit_lt_two_pow
    calc q < 2 ^ (32 - k) := hq32
      _ ≤ 2 ^ (i - k) := Nat.pow_le_pow_right (by omega) (by omega)
  have hbm : ∀ i, Nat.testBit (2 ^ 32 - 2 ^ k) i = decide (k ≤ i ∧ i < 32) := by
    intro i
    rw [hmask, hmul]
    by_cases hik : i < k
    · rw [if_pos hik]
      have : ¬ (k ≤ i ∧ i < 32) := by omega
      simp [this]
    · rw [if_neg hik, Nat.testBit_two_pow_sub_one]
      simp only [decide_eq_decide]
      omega
  have hrhs : 2 ^ k * q + 2 ^ k - 1 = 2 ^ k * q + (2 ^ k - 1) := by omega
  have hbr : ∀ i, Nat.testBit (2 ^ k * q + (2 ^ k - 1)) i
      = if i < k then true else Nat.testBit q (i - k) := by
    intro i
    rw [Nat.testBit_mul_pow_two_add q (show (2 : Nat) ^ k - 1 < 2 ^ k by omega) i]
    by_cases hik : i < k
    · simp [hik, Nat.testBit_two_pow_sub_one]
    · simp [hik]
  apply Nat.eq_of_testBit_eq
  intro i
  rw [show blockTopE ⟨2 ^ k * q, 2 ^ 32 - 2 ^ k⟩
      = (2 ^ k * q) ||| (((2 ^ 32 - 1) ^^^ 2 ^ k * q) &&& ((2 ^ 32 - 1) ^^^ (2 ^ 32 - 2 ^ k)))
      from rfl]
  rw [hrhs, hbr i, Nat.testBit_or, Nat.testBit_and, Nat.testBit_xor, Nat.testBit_xor,
    Nat.testBit_two_pow_sub_one, hmul q i, hbm i]
  rcases Nat.lt_or_ge i k with hik | hik
  · have hi32 : i < 32 := by omega
    have hnm : ¬ (k ≤ i ∧ i < 32) := by omega
    simp [hik, hi32, hnm]
  · rcases Nat.lt_or_ge i 32 with hi32 | hi32
    · have hm : k ≤ i ∧ i < 32 := by omega
      have hik' : ¬ i < k := by omega
      simp [hik', hi32, hm]
    · have hik' : ¬ i < k := by omega
      have hi32' : ¬ i < 32 := by omega
      have hnm : ¬ (k ≤ i ∧ i < 32) := by omega
      simp [hik', hi32', hnm, hbq i hi32]

lemma blkEnt_top {e : Nat} {b : Nat × Nat} (hk : b.2 ≤ 32) (hdvd : 2 ^ b.2 ∣ b.1)
    (htop : b.1 + 2 ^ b.2 - 1 ≤ e) (he : e < 2 ^ 32) :
    blockTopE (blkEnt b) = b.1 + 2 ^ b.2 - 1 :=
  blockTopE_eq hk hdvd (by omega)

/-- Membership of an address in the block denoted by an entry, with the
block top as computed by `printEntry`. -/
def inBlockE (ent : tcamEnt) (a : Nat) : Prop :=
  ent.patt ≤ a ∧ a ≤ blockTopE ent

instance inBlockE_dec (ent : tcamEnt) (a : Nat) : Decidable (inBlockE ent a) := by
  unfold inBlockE
  infer_instance

lemma chain'_imp_mem {α : Type} {R S : α → α → Prop} :
    ∀ {l : List α}, (∀ x ∈ l, ∀ y ∈ l, R x y → S x y) → l.Chain' R → l.Chain' S := by
  intro l
  induction l with
  | nil =>
    intro _ _
    exact List.chain'_nil
  | cons a l' ih =>
    intro h hch
    cases l' with
    | nil => simp
    | cons b l'' =>
      rw [List.chain'_cons] at hch ⊢
      refine ⟨h a (List.mem_cons_self _ _) b (List.mem_cons_of_mem _
        (List.mem_cons_self _ _)) hch.1, ?_⟩
      exact ih (fun x hx y hy => h x (List.mem_cons_of_mem _ hx)
        y (List.mem_cons_of_mem _ hy)) hch.2

lemma mask2plenAux_nonneg : ∀ f m mask, 0 ≤ mask2plenAux f m mask := by
  intro f
  induction f with
  | zero =>
    intro m mask
    exact le_refl 0
  | succ f ih =>
    intro m mask
    rw [mask2plenAux]
    by_cases h : m = mask
    · rw [if_pos h]
      exact Int.ofNat_nonneg _
    · rw [if_neg h]
      exact ih _ _

lemma mask2plen_shl : ∀ k, k ≤ 32 → mask2plen (allOnesShl k) = ((32 - k : Nat) : Int) := by
  decide

/-! ### Claims -/

/-- C1, counterexample: the range `[1, 2^32 - 2]` satisfies
`0 ≤ st ≤ end < 2^32 - 1` but `range2masks` does not succeed on it: its
greedy decomposition needs 62 aligned blocks, so the 33rd append hits
the `MAXENT` capacity check and the call fails. -/
theorem c1_cex : range2masks 1 (2 ^ 32 - 2) = .error .capacityExceeded := by rfl

/-- C1, amended: for `0 ≤ st ≤ end < 2^32 - 1`, when `range2masks`
succeeds (it can instead fail with `capacityExceeded` when more than 32
blocks would be needed) the union of the blocks
`[patt, patt | (~patt & ~mask)]` of its entries is exactly
`{st, ..., end}` and the blocks are pairwise disjoint. -/
theorem c1_coverage_disjoint {st e : Nat} {rs : List tcamEnt}
    (hse : st ≤ e) (he : e < 2 ^ 32 - 1)
    (hok : range2masks st e = .ok rs) :
    (∀ a, (st ≤ a ∧ a ≤ e) ↔ ∃ ent ∈ rs, inBlockE ent a) ∧
    List.Pairwise (fun x y => ∀ a, ¬ (inBlockE x a ∧ inBlockE y a)) rs := by
  have hp32 : (0 : Nat) < 2 ^ 32 := Nat.two_pow_pos 32
  have he32 : e < 2 ^ 32 := by omega
  obtain ⟨hrs, _⟩ := range2masks_ok_elim he32 hse hok
  subst hrs
  constructor
  · intro a
    rw [gblocks_cover e st hse he32 a]
    constructor
    · rintro ⟨b, hb, h1, h2⟩
      have hsh := gblocks_shape e st hse he32 b hb
      refine ⟨blkEnt b, List.mem_map_of_mem _ hb, h1, ?_⟩
      rw [blkEnt_top hsh.2.2.1 hsh.2.1 hsh.2.2.2 he32]
      exact h2
    · rintro ⟨ent, hent, h1, h2⟩
      obtain ⟨b, hb, rfl⟩ := List.mem_map.mp hent
      have hsh := gblocks_shape e st hse he32 b hb
      rw [blkEnt_top hsh.2.2.1 hsh.2.1 hsh.2.2.2 he32] at h2
      exact ⟨b, hb, h1, h2⟩
  · have hpw := gblocks_pairwise e st hse he32
    rw [List.pairwise_map]
    refine List.Pairwise.imp_of_mem ?_ hpw
    intro x y hx hy hrel a ha
    obtain ⟨⟨hx1, hx2⟩, ⟨hy1, hy2⟩⟩ := ha
    have hshx := gblocks_shape e st hse he32 x hx
    have hshy := gblocks_shape e st hse he32 y hy
    rw [blkEnt_top hshx.2.2.1 hshx.2.1 hshx.2.2.2 he32] at hx2
    rw [blkEnt_top hshy.2.2.1 hshy.2.1 hshy.2.2.2 he32] at hy2
    simp only [blkEnt] at hx1 hy1
    omega

/-- C1, witness: the amended statement instantiated on the range
`[5, 10]`, whose conversion is the four entries of the worked example. -/
theorem c1_witness :
    (∀ a, (5 ≤ a ∧ a ≤ 10) ↔
      ∃ ent ∈ ([⟨10, 4294967295⟩, ⟨8, 4294967294⟩, ⟨6, 4294967294⟩,
        ⟨5, 4294967295⟩] : List tcamEnt), inBlockE ent a) ∧
    List.Pairwise (fun x y => ∀ a, ¬ (inBlockE x a ∧ inBlockE y a))
      ([⟨10, 4294967295⟩, ⟨8, 4294967294⟩, ⟨6, 4294967294⟩,
        ⟨5, 4294967295⟩] : List tcamEnt) :=
  c1_coverage_disjoint (by decide) (by decide) rfl

/-- C3: with `end` at the domain maximum `2^32 - 1`, the conversion
fails with `rangeTooLarge` for every nonzero `st`, and for `st = 0` it
succeeds with the single full-domain entry `(0, 0)`. -/
theorem c3_boundary :
    (∀ st, st ≠ 0 → range2masks st (2 ^ 32 - 1) = .error .rangeTooLarge) ∧
    range2masks 0 (2 ^ 32 - 1) = .ok [⟨0, 0⟩] := by
  constructor
  · intro st hst
    rw [range2masks, if_pos ⟨rfl, hst⟩]
  · rfl

/-- C3, witness: the failing branch instantiated at `st = 5`. -/
theorem c3_witness : range2masks 5 (2 ^ 32 - 1) = .error .rangeTooLarge :=
  c3_boundary.1 5 (by decide)

/-- C5: the claim says `mask2plen` returns a negative value on a
non-contiguous mask, and the function's own doc comment promises the
same; but the implementation counts `plen` down from 32 and returns it
after the loop, so it returns `0` — never a negative value — on the
non-contiguous mask `0x00000001` (which is not `allOnes << k` for any
`k ≤ 32`).  The fall-through value `0` collides with the legitimate
prefix length of the contiguous mask `0`. -/
theorem c5_mask2plen_never_negative :
    (∀ f m mask, 0 ≤ mask2plenAux f m mask) ∧
    mask2plen 1 = 0 ∧
    ((List.range 33).all fun k => allOnesShl k != 1) = true :=
  ⟨mask2plenAux_nonneg, rfl, by decide⟩

/-- C7: when `st > end` the outer loop condition fails immediately, so
the call reports success with an empty rule set. -/
theorem c7_reversed_range_empty {st e : Nat} (h : e < st) (hst : st < 2 ^ 32) :
    range2masks st e = .ok [] := by
  have hg : ¬ (e = 2 ^ 32 - 1 ∧ st ≠ 0) := by
    rintro ⟨h1, _⟩
    omega
  rw [range2masks, if_neg hg, if_neg (by omega)]

/-- C7, witness: the reversed range `[10, 5]`. -/
theorem c7_witness : range2masks 10 5 = .ok [] :=
  c7_reversed_range_empty (by decide) (by decide)

/-- C8, counterexample: `st = 3`, `end = 2^32 - 2` satisfies the
precondition `st ≤ end < 2^32 - 1`, yet the `CapacityExceeded` branch
fires: the decomposition would need more than `MAXENT = 32` entries. -/
theorem c8_cex : range2masks 3 (2 ^ 32 - 2) = .error .capacityExceeded := by rfl

/-- C8, amended: the capacity check before each append makes the call
succeed exactly when some decomposition of `[st, end]` into at most 32
aligned blocks exists (the greedy one is minimal, so this is equivalent
to the greedy decomposition fitting); the failure branch is reachable,
since ranges can need up to 62 blocks. -/
theorem c8_capacity_iff {st e : Nat} (hse : st ≤ e) (he : e < 2 ^ 32)
    (hg : e = 2 ^ 32 - 1 → st = 0) :
    (∃ rs, range2masks st e = .ok rs) ↔ ∃ L, isDecomp st e L ∧ L.length ≤ 32 := by
  rw [range2masks_eq hse he hg]
  constructor
  · rintro ⟨rs, hrs⟩
    by_cases hlen : (gblocks st e).length ≤ 32
    · exact ⟨gblocks st e, gblocks_isDecomp hse he, hlen⟩
    · rw [if_neg hlen] at hrs
      simp at hrs
  · rintro ⟨L, hL, hlen⟩
    have := gblocks_min e st hse he L hL
    exact ⟨(gblocks st e).map blkEnt, by rw [if_pos (by omega)]⟩

/-- C8, witness: the amended statement instantiated on `[5, 10]`. -/
theorem c8_witness : ∃ L, isDecomp 5 10 L ∧ L.length ≤ 32 :=
  (c8_capacity_iff (by decide) (by decide) (by decide)).mp
    ⟨[⟨10, 4294967295⟩, ⟨8, 4294967294⟩, ⟨6, 4294967294⟩, ⟨5, 4294967295⟩], rfl⟩

/-- C4: every entry of any successful conversion carries a mask of the
contiguous form `allOnes << k` for some `k ≤ 32`, and the low `k` bits
of its pattern are all zero. -/
theorem c4_mask_shape {st e : Nat} {rs : List tcamEnt} (he : e < 2 ^ 32)
    (hok : range2masks st e = .ok rs) :
    ∀ ent ∈ rs, ∃ k, k ≤ 32 ∧ ent.mask = allOnesShl k ∧ ent.patt % 2 ^ k = 0 := by
  by_cases hse : st ≤ e
  · obtain ⟨hrs, _⟩ := range2masks_ok_elim he hse hok
    subst hrs
    intro ent hent
    obtain ⟨b, hb, rfl⟩ := List.mem_map.mp hent
    have hsh := gblocks_shape e st hse he b hb
    refine ⟨b.2, hsh.2.2.1, ?_, ?_⟩
    · rw [allOnesShl_eq hsh.2.2.1]
      rfl
    · obtain ⟨m, hm⟩ := hsh.2.1
      simp only [blkEnt, hm]
      exact Nat.mul_mod_right _ _
  · rw [range2masks] at hok
    by_cases hguard : e = 2 ^ 32 - 1 ∧ st ≠ 0
    · rw [if_pos hguard] at hok
      simp at hok
    · rw [if_neg hguard, if_neg (by omega)] at hok
      have h := Except.ok.inj hok
      subst h
      intro ent hent
      simp at hent

/-- C4, witness: the mask-shape invariant for the first entry of the
conversion of `[5, 10]`. -/
theorem c4_witness :
    ∃ k, k ≤ 32 ∧ (⟨10, 4294967295⟩ : tcamEnt).mask = allOnesShl k ∧
      (⟨10, 4294967295⟩ : tcamEnt).patt % 2 ^ k = 0 :=
  @c4_mask_shape 5 10
    [⟨10, 4294967295⟩, ⟨8, 4294967294⟩, ⟨6, 4294967294⟩, ⟨5, 4294967295⟩]
    (by decide) rfl ⟨10, 4294967295⟩ (by decide)

/-- C9: on success the entries run from the top of the interval
downward: the first entry's block tops out at `end`, each entry's
pattern exceeds the next entry's block top, and consecutive blocks are
adjacent (the next block's top is the current pattern minus one). -/
theorem c9_descending_adjacent {st e : Nat} {rs : List tcamEnt}
    (hse : st ≤ e) (he : e < 2 ^ 32 - 1) (hok : range2masks st e = .ok rs) :
    ∃ ent0 tl, rs = ent0 :: tl ∧ blockTopE ent0 = e ∧
      List.Chain' (fun x y => blockTopE y + 1 = x.patt ∧ blockTopE y < x.patt) rs := by
  have hp32 : (0 : Nat) < 2 ^ 32 := Nat.two_pow_pos 32
  have he32 : e < 2 ^ 32 := by omega
  obtain ⟨hrs, _⟩ := range2masks_ok_elim he32 hse hok
  subst hrs
  obtain ⟨tl, htl⟩ := gblocks_first e st hse
  have hple := block_start_pos hse
  have hb0 : (e + 1 - 2 ^ gexp st e, gexp st e) ∈ gblocks st e := by
    rw [htl]
    exact List.mem_cons_self _ _
  have hsh0 := gblocks_shape e st hse he32 _ hb0
  refine ⟨blkEnt (e + 1 - 2 ^ gexp st e, gexp st e), tl.map blkEnt, ?_, ?_, ?_⟩
  · rw [htl]
    simp
  · rw [blkEnt_top hsh0.2.2.1 hsh0.2.1 hsh0.2.2.2 he32]
    dsimp only
    omega
  · have hch := gblocks_chain e st hse he32
    rw [List.chain'_map]
    refine chain'_imp_mem ?_ hch
    intro x hx y hy hrel
    have hshx := gblocks_shape e st hse he32 x hx
    have hshy := gblocks_shape e st hse he32 y hy
    rw [blkEnt_top hshy.2.2.1 hshy.2.1 hshy.2.2.2 he32]
    have hposx : 0 < 2 ^ x.2 := Nat.two_pow_pos x.2
    have hposy : 0 < 2 ^ y.2 := Nat.two_pow_pos y.2
    simp only [blkEnt]
    omega

/-- C9, witness: the ordering statement instantiated on `[5, 10]`. -/
theorem c9_witness :
    ∃ ent0 tl,
      ([⟨10, 4294967295⟩, ⟨8, 4294967294⟩, ⟨6, 4294967294⟩,
        ⟨5, 4294967295⟩] : List tcamEnt) = ent0 :: tl ∧
      blockTopE ent0 = 10 ∧
      List.Chain' (fun x y => blockTopE y + 1 = x.patt ∧ blockTopE y < x.patt)
        ([⟨10, 4294967295⟩, ⟨8, 4294967294⟩, ⟨6, 4294967294⟩,
          ⟨5, 4294967295⟩] : List tcamEnt) :=
  @c9_descending_adjacent 5 10
    [⟨10, 4294967295⟩, ⟨8, 4294967294⟩, ⟨6, 4294967294⟩, ⟨5, 4294967295⟩]
    (by decide) (by decide) rfl

/-- C2: on success every emitted entry is maximal — the aligned block of
twice the size containing it would overshoot `end` (when the pattern is
aligned to the doubled size, the doubled block is
`[patt, patt + 2^(k+1) - 1]`) or undershoot `st` (otherwise the doubled
block is `[patt - 2^k, patt + 2^k - 1]`) — and the entry count is
minimal among all decompositions of `[st, end]` into aligned
power-of-two blocks, which the result itself achieves; in particular
conversions of ranges inside `[0, 255]` always succeed, so there their
count equals the brute-force minimum cover size. -/
theorem c2_maximal_minimal {st e : Nat} {rs : List tcamEnt} {L : List (Nat × Nat)}
    (hse : st ≤ e) (he : e < 2 ^ 32 - 1)
    (hok : range2masks st e = .ok rs) (hL : isDecomp st e L) :
    (∀ ent ∈ rs, ∃ k, k ≤ 32 ∧ ent.mask = allOnesShl k ∧ 2 ^ k ∣ ent.patt ∧
      (2 ^ (k + 1) ∣ ent.patt → e < ent.patt + (2 ^ (k + 1) - 1)) ∧
      (¬ 2 ^ (k + 1) ∣ ent.patt → ent.patt - 2 ^ k < st)) ∧
    rs.length ≤ L.length ∧
    (∃ L0, isDecomp st e L0 ∧ L0.length = rs.length) ∧
    (∀ u v, u ≤ v → v ≤ 255 → ∃ rs', range2masks u v = .ok rs') := by
  have hp32 : (0 : Nat) < 2 ^ 32 := Nat.two_pow_pos 32
  have he32 : e < 2 ^ 32 := by omega
  obtain ⟨hrs, _⟩ := range2masks_ok_elim he32 hse hok
  subst hrs
  refine ⟨?_, ?_, ?_, ?_⟩
  · intro ent hent
    obtain ⟨b, hb, rfl⟩ := List.mem_map.mp hent
    have hsh := gblocks_shape e st hse he32 b hb
    have hmx := gblocks_max e st e hse he32 (le_refl e)
      (Or.inl (by have := Nat.two_pow_pos (tv e); omega)) b hb
    refine ⟨b.2, hsh.2.2.1, ?_, ?_, ?_, ?_⟩
    · rw [allOnesShl_eq hsh.2.2.1]
      rfl
    · exact hsh.2.1
    · exact hmx.1
    · exact hmx.2
  · rw [List.length_map]
    exact gblocks_min e st hse he32 L hL
  · exact ⟨gblocks st e, gblocks_isDecomp hse he32, by rw [List.length_map]⟩
  · intro u v huv hv
    exact ⟨(gblocks u v).map blkEnt, range2masks_small huv hv⟩

/-- C2, witness: the statement instantiated on the range `[5, 10]` with
the six-singleton decomposition as competitor, matching the worked
example's count of four. -/
theorem c2_witness :
    (∀ ent ∈ ([⟨10, 4294967295⟩, ⟨8, 4294967294⟩, ⟨6, 4294967294⟩,
        ⟨5, 4294967295⟩] : List tcamEnt), ∃ k, k ≤ 32 ∧
      ent.mask = allOnesShl k ∧ 2 ^ k ∣ ent.patt ∧
      (2 ^ (k + 1) ∣ ent.patt → 10 < ent.patt + (2 ^ (k + 1) - 1)) ∧
      (¬ 2 ^ (k + 1) ∣ ent.patt → ent.patt - 2 ^ k < 5)) ∧
    ([⟨10, 4294967295⟩, ⟨8, 4294967294⟩, ⟨6, 4294967294⟩,
        ⟨5, 4294967295⟩] : List tcamEnt).length ≤
      ([(5, 0), (6, 0), (7, 0), (8, 0), (9, 0), (10, 0)] : List (Nat × Nat)).length ∧
    (∃ L0, isDecomp 5 10 L0 ∧ L0.length =
      ([⟨10, 4294967295⟩, ⟨8, 4294967294⟩, ⟨6, 4294967294⟩,
        ⟨5, 4294967295⟩] : List tcamEnt).length) ∧
    (∀ u v, u ≤ v → v ≤ 255 → ∃ rs', range2masks u v = .ok rs') :=
  @c2_maximal_minimal 5 10
    [⟨10, 4294967295⟩, ⟨8, 4294967294⟩, ⟨6, 4294967294⟩, ⟨5, 4294967295⟩]
    [(5, 0), (6, 0), (7, 0), (8, 0), (9, 0), (10, 0)]
    (by decide) (by decide) rfl (by decide)

/-- C6: the selector returns `Direct` whenever `start = 0` (the
conversion from 0 always succeeds), and for `start ≠ 0` it returns
`Split(reject, accept)` exactly when the reject and accept entry counts
sum to strictly less than the direct count, returning `Direct`
otherwise. -/
theorem c6_selector :
    (∀ x, x < 2 ^ 32 → ∃ d, select 0 x = .ok (.direct d)) ∧
    (∀ u v d r a, u ≠ 0 →
      range2masks u v = .ok d →
      range2masks 0 (u - 1) = .ok r →
      range2masks 0 v = .ok a →
      select u v = if r.length + a.length < d.length
        then .ok (.split r a) else .ok (.direct d)) := by
  constructor
  · intro x hx
    refine ⟨(gblocks 0 x).map blkEnt, ?_⟩
    rw [select, range2masks_zero hx]
    simp
  · intro u v d r a h0 hd hr ha
    rw [select, hd, hr, ha]
    simp [h0]

/-- C6, witness: `select 0 7` is `Direct`, and `select 100 200` is
`Direct` because the direct conversion has 6 entries while the split
alternative has `3 + 4 = 7`. -/
theorem c6_witness :
    (∃ d, select 0 7 = .ok (.direct d)) ∧
    select 100 200 = .ok (.direct
      [⟨200, 4294967295⟩, ⟨192, 4294967288⟩, ⟨128, 4294967232⟩,
       ⟨112, 4294967280⟩, ⟨104, 4294967288⟩, ⟨100, 4294967292⟩]) := by
  constructor
  · exact c6_selector.1 7 (by decide)
  · have h := c6_selector.2 100 200
      [⟨200, 4294967295⟩, ⟨192, 4294967288⟩, ⟨128, 4294967232⟩,
       ⟨112, 4294967280⟩, ⟨104, 4294967288⟩, ⟨100, 4294967292⟩]
      [⟨96, 4294967292⟩, ⟨64, 4294967264⟩, ⟨0, 4294967232⟩]
      [⟨200, 4294967295⟩, ⟨192, 4294967288⟩, ⟨128, 4294967232⟩, ⟨0, 4294967168⟩]
      (by decide) rfl rfl rfl
    simpa using h

/-- C10: converting the contiguous mask `allOnes << k` back through
`mask2plen` yields the prefix length `32 - k` for every `k ≤ 32`; hence
`mask2plen` is injective on contiguous masks and maps the mask of every
entry of a successful conversion to its unique prefix length. -/
theorem c10_mask_roundtrip :
    (∀ k, k ≤ 32 → mask2plen (allOnesShl k) = ((32 - k : Nat) : Int)) ∧
    (∀ j k, j ≤ 32 → k ≤ 32 →
      mask2plen (allOnesShl j) = mask2plen (allOnesShl k) → j = k) ∧
    (∀ st e rs, e < 2 ^ 32 → range2masks st e = .ok rs →
      ∀ ent ∈ rs, ∃ k, k ≤ 32 ∧ ent.mask = allOnesShl k ∧
        mask2plen ent.mask = ((32 - k : Nat) : Int)) := by
  refine ⟨mask2plen_shl, ?_, ?_⟩
  · intro j k hj hk heq
    rw [mask2plen_shl j hj, mask2plen_shl k hk] at heq
    have := Int.ofNat.inj heq
    omega
  · intro u e rs he hok ent hent
    by_cases hse : u ≤ e
    · obtain ⟨hrs, _⟩ := range2masks_ok_elim he hse hok
      subst hrs
      obtain ⟨b, hb, rfl⟩ := List.mem_map.mp hent
      have hsh := gblocks_shape e u hse he b hb
      have hmk : (blkEnt b).mask = allOnesShl b.2 := by
        rw [allOnesShl_eq hsh.2.2.1]
        rfl
      exact ⟨b.2, hsh.2.2.1, hmk, by rw [hmk, mask2plen_shl b.2 hsh.2.2.1]⟩
    · rw [range2masks] at hok
      by_cases hguard : e = 2 ^ 32 - 1 ∧ u ≠ 0
      · rw [if_pos hguard] at hok
        simp at hok
      · rw [if_neg hguard, if_neg (by omega)] at hok
        have h := Except.ok.inj hok
        subst h
        simp at hent

/-- C10, witness: the round trip at `k = 8` gives prefix length 24. -/
theorem c10_witness : mask2plen (allOnesShl 8) = ((32 - 8 : Nat) : Int) :=
  c10_mask_roundtrip.1 8 (by decide)

end Range2Masks
